import Mathlib

/-!
# File discovery engine (`pkg/finder/fsfinder.go`)

A shallow embedding of `FileSystemFinder`: its configuration, the single-root
traversal `findOne` (the callback handed to `filepath.WalkDir` together with the
walk itself) and the multi-root orchestration `Find`.

Modelling choices.
* Strings are Lean strings read as sequences of characters; the path separator is
  `/` (Unix). `strings.ToLower` is modelled on ASCII letters.
* The filesystem is a `World`: what `os.Stat` and `os.Lstat` answer for a root
  string, and what `os.Getwd` answers. A directory entry is a file (anything that
  is not a directory, a symbolic link included) or a directory with the entries
  `os.ReadDir` lists, or the error it reports.
* A Go result `(nil, err)` is `Except.error err`; `(matches, nil)` is
  `Except.ok matches`.
* Go `int` is 64 bit, additions wrap.
-/

set_option autoImplicit false

namespace Finder

/-! ## Strings and paths (Go standard library, Unix) -/

/-- The path separator `os.PathSeparator`. -/
def sep : Char := '/'

/-- Go `strings.Count(s, string(os.PathSeparator))`. -/
def sepCount (s : String) : Nat := s.data.count sep

/-- Scan of `filepath.Ext` from the end of the path: `rev` is what is left to scan
(reversed), `acc` the suffix already passed. -/
def extScan : List Char → List Char → List Char
  | [], _ => []
  | c :: rev, acc =>
    if c = sep then []
    else if c = '.' then c :: acc
    else extScan rev (c :: acc)

/-- Go `filepath.Ext`: the suffix starting at the last dot of the last path element,
empty when that element has no dot. -/
def Ext (path : String) : String := ⟨extScan path.data.reverse []⟩

/-- Go `strings.TrimPrefix(s, ".")`. -/
def trimDot (s : String) : String :=
  match s.data with
  | '.' :: rest => ⟨rest⟩
  | _ => s

/-- Go `strings.ToLower` on ASCII letters; a letter outside ASCII, which Go maps to
its lower case as well, is left as it is. -/
def ToLower (s : String) : String := ⟨s.data.map Char.toLower⟩

/-- Go `strings.Split` at a one character delimiter. -/
def splitAtChar (d : Char) : List Char → List (List Char)
  | [] => [[]]
  | c :: cs =>
    if c = d then [] :: splitAtChar d cs
    else
      match splitAtChar d cs with
      | [] => [[c]]
      | h :: t => (c :: h) :: t

/-- Split at every separator (`strings.Split(s, "/")`). -/
def splitSep (s : List Char) : List (List Char) := splitAtChar sep s

/-- One path element of `filepath.Clean`; `out` is the stack of kept elements, last
one first. Empty elements and `.` are dropped, `..` removes the last kept element
when there is one that is not itself `..`, and is kept in a relative path
otherwise. -/
def cleanStep (rooted : Bool) (out : List (List Char)) (c : List Char) : List (List Char) :=
  if c = [] ∨ c = ['.'] then out
  else if c = ['.', '.'] then
    match out with
    | [] => if rooted then [] else [c]
    | top :: rest => if top = ['.', '.'] then c :: out else rest
  else c :: out

/-- The elements kept by `filepath.Clean`, in path order. -/
def cleanElems (rooted : Bool) (s : List Char) : List (List Char) :=
  ((splitSep s).foldl (cleanStep rooted) []).reverse

/-- Join elements with the separator. -/
def joinElems : List (List Char) → List Char
  | [] => []
  | [c] => c
  | c :: rest => c ++ sep :: joinElems rest

/-- Go `filepath.Clean` on a character sequence. -/
def cleanChars (s : List Char) : List Char :=
  match s with
  | [] => ['.']
  | c :: _ =>
    if c = sep then sep :: joinElems (cleanElems true s)
    else
      match cleanElems false s with
      | [] => ['.']
      | e :: es => joinElems (e :: es)

/-- Go `filepath.Clean`. -/
def Clean (s : String) : String := ⟨cleanChars s.data⟩

/-- Go `filepath.Join(a, b)`: the first non-empty element starts the joined string,
which is then cleaned. -/
def Join (a b : String) : String :=
  if a.data ≠ [] then ⟨cleanChars (a.data ++ sep :: b.data)⟩
  else if b.data ≠ [] then ⟨cleanChars b.data⟩
  else ""

/-- Go `filepath.IsAbs` (Unix). -/
def IsAbs (s : String) : Bool :=
  match s.data with
  | c :: _ => c == sep
  | [] => false

/-! ## Data model -/

/-- A Go `error` coming from the operating system (`*fs.PathError`,
`*os.SyscallError`): the failed operation, the path it was applied to and the
error number. -/
structure FsError where
  op : String
  path : String
  errno : Nat
  deriving DecidableEq, Repr

deriving instance DecidableEq for Except

/-- The error number `ENOENT`. -/
def ENOENT : Nat := 2

/-- Go `os.IsNotExist`. -/
def FsError.isNotExist (e : FsError) : Bool := e.errno == ENOENT

/-- The descriptor `filetype.FileType`: a name, the set of extensions, and the
validator (an opaque capability, kept as a tag). -/
structure FileType where
  Name : String
  Extensions : List String
  Validator : Nat
  deriving DecidableEq, Repr

/-- The record `FileMetadata`. -/
structure FileMetadata where
  Name : String
  Path : String
  FileType : FileType
  deriving DecidableEq, Repr

/-- The configuration `FileSystemFinder`. The two exclusion maps
`map[string]struct{}` are sets of strings, `AdditionalFiles` is a key to value
table read with `List.lookup`, `Depth` is the `*int`. -/
structure FileSystemFinder where
  PathRoots : List String
  FileTypes : List FileType
  ExcludeDirs : List String
  ExcludeFileTypes : List String
  Depth : Option Int
  AdditionalFiles : List (String × String)
  deriving DecidableEq, Repr

/-- A directory entry as the walk sees it: a non-directory, or a directory with the
outcome of `os.ReadDir` on it (an error, or its entries in listing order). -/
inductive Node where
  | file (name : String)
  | dir (name : String) (readErr : Option FsError) (children : List Node)

/-- The name `DirEntry.Name()`. -/
def Node.name : Node → String
  | .file n => n
  | .dir n _ _ => n

/-- The flag `DirEntry.IsDir()`. -/
def Node.isDir : Node → Bool
  | .file _ => false
  | .dir _ _ _ => true

/-- The operating system as the finder sees it. `stat p` is the error of
`os.Stat(p)` if any, `lstat p` the outcome of `os.Lstat(p)` with the tree found
there, `getwd` the outcome of `os.Getwd()`. -/
structure World where
  stat : String → Option FsError
  lstat : String → Except FsError Node
  getwd : Except FsError String

/-- Go `filepath.Abs` (Unix): an absolute path is cleaned, a relative one is joined
to the working directory, and fails when that is unavailable. -/
def World.abs (w : World) (path : String) : Except FsError String :=
  if IsAbs path then .ok (Clean path)
  else
    match w.getwd with
    | .error e => .error e
    | .ok wd => .ok (Join wd path)

/-! ## Machine integers -/

/-- A value reduced to the range of a 64 bit Go `int`. -/
def wrapInt (x : Int) : Int := (x + 2 ^ 63) % 2 ^ 64 - 2 ^ 63

/-! ## Single-root traversal -/

/-- The extension `walkFileExtension` after the `AdditionalFiles` lookup. -/
def walkFileExtension (fsf : FileSystemFinder) (name path : String) : String :=
  let ext := trimDot (Ext path)
  if ext.data.length = 0 then
    match fsf.AdditionalFiles.lookup name with
    | some v => v
    | none => ""
  else ext

/-- The loop over `fsf.FileTypes`: the first type holding the extension. -/
def matchFileType (fileTypes : List FileType) (extensionLowerCase : String) : Option FileType :=
  fileTypes.find? (fun fileType => decide (extensionLowerCase ∈ fileType.Extensions))

/-- The matches appended to `matchingFiles` by the callback for one non-directory
entry. -/
def matchFile (fsf : FileSystemFinder) (name path : String) : List FileMetadata :=
  let ext := walkFileExtension fsf name path
  if ext ∈ fsf.ExcludeFileTypes then []
  else
    match matchFileType fsf.FileTypes (ToLower ext) with
    | some fileType => [⟨name, path, fileType⟩]
    | none => []

/-- What the callback hands back to the walk. -/
inductive WalkAction where
  | next (emitted : List FileMetadata)
  | skipDir
  | fail (err : FsError)

/-- The condition under which the callback answers `filepath.SkipDir`. -/
def skipCond (fsf : FileSystemFinder) (maxDepth : Int) (name path : String) (isDir : Bool) : Bool :=
  isDir && ((fsf.Depth.isSome && decide ((sepCount path : Int) > maxDepth))
    || decide (name ∈ fsf.ExcludeDirs))

/-- The callback given to `filepath.WalkDir`. -/
def walkFn (fsf : FileSystemFinder) (maxDepth : Int) (path name : String) (isDir : Bool)
    (err : Option FsError) : WalkAction :=
  match err with
  | some e => .fail e
  | none =>
    if skipCond fsf maxDepth name path isDir then .skipDir
    else if !isDir then .next (matchFile fsf name path)
    else .next []

mutual
/-- Go `filepath.walkDir` run with the callback `walkFn`: the callback is called on
the entry; on a directory that is not skipped `os.ReadDir` follows, a failure of
which is reported to the callback in a second call, and then the entries are walked
in listing order. `filepath.SkipDir` from a directory ends that directory only. -/
def walkDir (fsf : FileSystemFinder) (maxDepth : Int) (path : String) : Node → WalkAction
  | .file name => walkFn fsf maxDepth path name false none
  | .dir name readErr children =>
    match walkFn fsf maxDepth path name true none with
    | .fail e => .fail e
    | .skipDir => .next []
    | .next first =>
      match readErr with
      | some e =>
        match walkFn fsf maxDepth path name true (some e) with
        | .fail e1 => .fail e1
        | .skipDir => .next first
        | .next again => .next (first ++ again)
      | none =>
        match walkEntries fsf maxDepth path children with
        | .fail e => .fail e
        | .skipDir => .next first
        | .next rest => .next (first ++ rest)
/-- The loop of `filepath.walkDir` over the entries of the directory `path`, each
walked at `filepath.Join(path, name)`; `filepath.SkipDir` from an entry ends the
loop. -/
def walkEntries (fsf : FileSystemFinder) (maxDepth : Int) (path : String) : List Node → WalkAction
  | [] => .next []
  | d1 :: ds =>
    match walkDir fsf maxDepth (Join path d1.name) d1 with
    | .fail e => .fail e
    | .skipDir => .next []
    | .next ms =>
      match walkEntries fsf maxDepth path ds with
      | .fail e => .fail e
      | .skipDir => .next ms
      | .next rest => .next (ms ++ rest)
end

/-- The bound `maxDepth` of `findOne`. -/
def maxDepthOf (fsf : FileSystemFinder) (pathRoot : String) : Int :=
  wrapInt ((sepCount pathRoot : Int) + (match fsf.Depth with | some d => d | none => 0))

/-- Go `filepath.WalkDir(pathRoot, walkFn)`. -/
def WalkDir (w : World) (fsf : FileSystemFinder) (maxDepth : Int) (pathRoot : String) : WalkAction :=
  match w.lstat pathRoot with
  | .error e =>
    match walkFn fsf maxDepth pathRoot "" false (some e) with
    | .skipDir => .next []
    | r => r
  | .ok info =>
    match walkDir fsf maxDepth pathRoot info with
    | .skipDir => .next []
    | r => r

/-- The method `findOne`. -/
def findOne (w : World) (fsf : FileSystemFinder) (pathRoot : String) :
    Except FsError (List FileMetadata) :=
  match w.stat pathRoot with
  | some e =>
    if e.isNotExist then .error e
    else
      match WalkDir w fsf (maxDepthOf fsf pathRoot) pathRoot with
      | .fail e1 => .error e1
      | .skipDir => .ok []
      | .next ms => .ok ms
  | none =>
    match WalkDir w fsf (maxDepthOf fsf pathRoot) pathRoot with
    | .fail e1 => .error e1
    | .skipDir => .ok []
    | .next ms => .ok ms

/-! ## Multi-root orchestration -/

/-- The inner loop of `Find` over the matches of one root; the state is the set
`seen` and the slice `uniqueMatches`. -/
def addMatches (w : World) :
    List String × List FileMetadata → List FileMetadata →
      Except FsError (List String × List FileMetadata)
  | st, [] => .ok st
  | (seen, uniqueMatches), m :: ms =>
    match w.abs m.Path with
    | .error e => .error e
    | .ok absPath =>
      if absPath ∈ seen then addMatches w (seen, uniqueMatches) ms
      else addMatches w (absPath :: seen, uniqueMatches ++ [m]) ms

/-- The outer loop of `Find` over the roots. -/
def findRoots (w : World) (fsf : FileSystemFinder) :
    List String × List FileMetadata → List String → Except FsError (List FileMetadata)
  | st, [] => .ok st.2
  | st, pathRoot :: rest =>
    match findOne w fsf pathRoot with
    | .error e => .error e
    | .ok ms =>
      match addMatches w st ms with
      | .error e => .error e
      | .ok st1 => findRoots w fsf st1 rest

/-- The method `Find`. -/
def Find (w : World) (fsf : FileSystemFinder) : Except FsError (List FileMetadata) :=
  findRoots w fsf ([], []) fsf.PathRoots

/-! ## Configuration assembly -/

/-- The type `FSFinderOptions`. -/
abbrev FSFinderOptions := FileSystemFinder → FileSystemFinder

/-- The option `WithPathRoots`. -/
def WithPathRoots (paths : List String) : FSFinderOptions :=
  fun fsf => { fsf with PathRoots := paths }

/-- The option `WithFileTypes`. -/
def WithFileTypes (fileTypes : List FileType) : FSFinderOptions :=
  fun fsf => { fsf with FileTypes := fileTypes }

/-- The option `WithExcludeDirs`; `misc.ArrToMap` makes the set of the given names. -/
def WithExcludeDirs (excludeDirs : List String) : FSFinderOptions :=
  fun fsf => { fsf with ExcludeDirs := excludeDirs }

/-- The option `WithExcludeFileTypes`. -/
def WithExcludeFileTypes (types : List String) : FSFinderOptions :=
  fun fsf => { fsf with ExcludeFileTypes := types }

/-- The option `WithDepth`. -/
def WithDepth (depthVal : Int) : FSFinderOptions :=
  fun fsf => { fsf with Depth := some depthVal }

/-- Assignment `m[k] = v` in a Go map kept as a table. -/
def mapSet (k v : String) (m : List (String × String)) : List (String × String) :=
  (k, v) :: m.filter (fun p => p.1 ≠ k)

/-- The loop of `AddFiles` over the specs. -/
def addFileSpecs : List (String × String) → List String → List (String × String)
  | m, [] => m
  | m, f :: fs =>
    match splitAtChar ':' f.data with
    | [k, v] => addFileSpecs (mapSet ⟨k⟩ ⟨v⟩ m) fs
    | _ => addFileSpecs m fs

/-- The option `AddFiles`. -/
def AddFiles (files : List String) : FSFinderOptions :=
  fun fsf =>
    if files.length > 0 then { fsf with AdditionalFiles := addFileSpecs [] files }
    else fsf

/-- The function `readConfig`: its body is empty and it returns nothing. -/
def readConfig (file : String) : Unit :=
  if file.data.length > 0 then () else ()

/-- The constructor `FileSystemFinderInit`; `builtin` is the registry
`filetype.FileTypes`. -/
def FileSystemFinderInit (builtin : List FileType) (opts : List FSFinderOptions) :
    FileSystemFinder :=
  opts.foldl (fun fsfinder opt => opt fsfinder)
    { PathRoots := ["."], FileTypes := builtin, ExcludeDirs := [], ExcludeFileTypes := [],
      Depth := none, AdditionalFiles := [] }


/-! ## Notions used to state the properties -/

/-- The outcome of a walk as a Go result. -/
def WalkAction.toExcept : WalkAction → Except FsError (List FileMetadata)
  | .fail e => .error e
  | .skipDir => .ok []
  | .next ms => .ok ms

/-- The relation `FileAt path node dirs name fpath`: in the tree `node` walked at
`path` there is a non-directory entry `name`, visited at the walk path `fpath`, and
`dirs` are the names of the directories above it, from `node` itself downwards. -/
inductive FileAt : String → Node → List String → String → String → Prop where
  | file (path name : String) : FileAt path (.file name) [] name path
  | dir (path dn : String) (re : Option FsError) (children : List Node) (d : Node)
      (dirs : List String) (name fpath : String) :
      d ∈ children → FileAt (Join path d.name) d dirs name fpath →
      FileAt path (.dir dn re children) (dn :: dirs) name fpath

/-- The matches of all roots, in root order (`ms r` are the matches of root `r`). -/
def allMatches (ms : String → List FileMetadata) : List String → List FileMetadata
  | [] => []
  | r :: rs => ms r ++ allMatches ms rs

/-- The sequence `l` from which every entry whose key equals the key of an earlier
entry has been removed; `earlier` are the entries that come before `l`. -/
def firstOccurrences {κ : Type} [DecidableEq κ] (key : FileMetadata → κ) :
    List FileMetadata → List FileMetadata → List FileMetadata
  | _, [] => []
  | earlier, m :: ms =>
    if (earlier.map key).contains (key m) then firstOccurrences key (earlier ++ [m]) ms
    else m :: firstOccurrences key (earlier ++ [m]) ms

/-- The key of deduplication: `filepath.Abs` of the path of an entry. -/
def absKey (w : World) (m : FileMetadata) : Option String :=
  match w.abs m.Path with
  | .ok a => some a
  | .error _ => none

/-- The set `seen` holds the absolute paths of the entries met so far. -/
def SeenInv (w : World) (seen : List String) (earlier : List FileMetadata) : Prop :=
  ∀ k, k ∈ seen ↔ some k ∈ earlier.map (absKey w)

/-- An element that `filepath.Clean` keeps in a rooted path. -/
def NormalElem (e : List Char) : Prop :=
  e ≠ [] ∧ e ≠ ['.'] ∧ e ≠ ['.', '.'] ∧ sep ∉ e

/-! ## Concrete filesystems and finders -/

/-- A filesystem given by the trees found at some root strings; every other path
does not exist. -/
def worldOf (entries : List (String × Node)) (wd : Except FsError String) : World where
  stat := fun p =>
    match entries.lookup p with
    | some _ => none
    | none => some ⟨"stat", p, ENOENT⟩
  lstat := fun p =>
    match entries.lookup p with
    | some n => .ok n
    | none => .error ⟨"lstat", p, ENOENT⟩
  getwd := wd

/-- A registry entry for JSON files. -/
def jsonType : FileType := ⟨"json", ["json"], 0⟩

/-- A registry entry for YAML files. -/
def yamlType : FileType := ⟨"yaml", ["yml", "yaml"], 1⟩

/-- One JSON file reachable under a relative and under an absolute spelling. -/
def worldAbs : World :=
  worldOf [("sub/good.json", .file "good.json"), ("/wd/sub/good.json", .file "good.json")]
    (.ok "/wd")

/-- The finder of `Test_FileSystemFinderAbsPath`. -/
def finderAbs : FileSystemFinder :=
  FileSystemFinderInit [jsonType, yamlType]
    [WithPathRoots ["sub/good.json", "/wd/sub/good.json"]]

/-- The matches of each root of `finderAbs`. -/
def matchesAbs (r : String) : List FileMetadata :=
  if r = "sub/good.json" then [⟨"good.json", "sub/good.json", jsonType⟩]
  else [⟨"good.json", "/wd/sub/good.json", jsonType⟩]

/-- A JSON file next to a working directory that has been removed: `os.Getwd`
fails. -/
def worldGone : World :=
  worldOf [("../good.json", .file "good.json")] (.error ⟨"getwd", "", ENOENT⟩)

/-- A finder with a valid root followed by a root that does not exist. -/
def finderGone : FileSystemFinder :=
  FileSystemFinderInit [jsonType, yamlType] [WithPathRoots ["../good.json", "/bad/path"]]

/-- A finder whose only root is the JSON file of `worldGone`. -/
def finderGoneOne : FileSystemFinder :=
  FileSystemFinderInit [jsonType, yamlType] [WithPathRoots ["../good.json"]]

/-- The fixture directory of `Test_FileFinderBadPath`. -/
def worldBad : World :=
  worldOf [("../../test/fixtures/subdir",
      .dir "subdir" none [.file "good.json", .file "notes.txt"])] (.ok "/repo/pkg/finder")

/-- The finder of `Test_FileFinderBadPath`. -/
def finderBad : FileSystemFinder :=
  FileSystemFinderInit [jsonType, yamlType]
    [WithPathRoots ["../../test/fixtures/subdir", "/bad/path"]]

/-- The matches of the valid root of `finderBad`. -/
def matchesBad (_r : String) : List FileMetadata :=
  [⟨"good.json", "../../test/fixtures/subdir/good.json", jsonType⟩]

mutual
/-- The tree in which every directory named in `excl` has lost its content. -/
def prune (excl : List String) : Node → Node
  | .file name => .file name
  | .dir name readErr children =>
    if name ∈ excl then .dir name none []
    else .dir name readErr (pruneEntries excl children)
/-- The entries of a directory, each pruned. -/
def pruneEntries (excl : List String) : List Node → List Node
  | [] => []
  | d :: ds => prune excl d :: pruneEntries excl ds
end

/-- The filesystem in which every tree is pruned of the content of the directories
named in `excl`. -/
def World.pruned (w : World) (excl : List String) : World where
  stat := w.stat
  lstat := fun p =>
    match w.lstat p with
    | .ok n => .ok (prune excl n)
    | .error e => .error e
  getwd := w.getwd

/-- A fixture tree with a directory `subdir` at two depths. -/
def worldFixtures : World :=
  worldOf [("fixtures",
      .dir "fixtures" none
        [.file "good.json",
         .dir "keep" none [.file "k.yaml", .dir "subdir" none [.file "deep.json"]],
         .dir "subdir" none [.file "bad.json"]])] (.ok "/repo")

/-- The finder of `Test_fsFinderExcludeDirs`. -/
def finderExcludeDirs : FileSystemFinder :=
  FileSystemFinderInit [jsonType, yamlType]
    [WithPathRoots ["fixtures"], WithExcludeDirs ["subdir"]]

/-- A registry entry for files declared as `make`. -/
def makeType : FileType := ⟨"make", ["make"], 2⟩

/-- A project directory holding one extensionless file. -/
def worldMake : World :=
  worldOf [("proj", .dir "proj" none [.file "Makefile"])] (.ok "/repo")

/-- A finder that rejects the empty extension and maps `Makefile` to `make`. -/
def finderMake : FileSystemFinder :=
  FileSystemFinderInit [jsonType, makeType]
    [WithPathRoots ["proj"], WithExcludeFileTypes [""], AddFiles ["Makefile:make"]]

/-- The fixture of `Test_fsFinderExcludeFileTypes`: one JSON and one YAML file. -/
def worldTypes : World :=
  worldOf [("exclude-file-types",
      .dir "exclude-file-types" none [.file "excluded.json", .file "not-excluded.yaml"])]
    (.ok "/repo")

/-- The finder of `Test_fsFinderExcludeFileTypes`. -/
def finderTypes : FileSystemFinder :=
  FileSystemFinderInit [jsonType, yamlType]
    [WithPathRoots ["exclude-file-types"], WithExcludeFileTypes ["json"]]

/-- A tree walked from the roots `../` and `.`, with files one and two directories
below the root. -/
def worldDepth : World :=
  worldOf
    [("../", .dir ".." none
        [.dir "finder" none [.file "config.json", .dir "deep" none [.file "x.json"]]]),
     (".", .dir "." none
        [.dir "sub" none [.dir "deep" none [.file "y.json"], .file "f.json"]])]
    (.ok "/repo/pkg/finder")

/-- The finder of the case `recursion disabled` of `Test_fsFinderWithDepth`. -/
def finderDepthZero : FileSystemFinder :=
  FileSystemFinderInit [jsonType, yamlType] [WithPathRoots ["../"], WithDepth 0]

/-- The same with the default root `.`. -/
def finderDepthZeroDot : FileSystemFinder :=
  FileSystemFinderInit [jsonType, yamlType] [WithDepth 0]

/-- A directory holding a file with an upper-case extension. -/
def worldCase : World :=
  worldOf [("conf", .dir "conf" none [.file "a.JSON"])] (.ok "/repo")

/-- A finder that rejects the extension `json`. -/
def finderCase : FileSystemFinder :=
  FileSystemFinderInit [jsonType, yamlType]
    [WithPathRoots ["conf"], WithExcludeFileTypes ["json"]]

/-- Modelled from the spec: the error kind `ConfigurationUnavailable` of the
external-configuration loader, which the source does not define: "external
configuration file missing or malformed - must be surfaced, never silently
ignored". -/
def ConfigurationUnavailable (file : String) : FsError :=
  ⟨"ConfigurationUnavailable", file, 0⟩

/-- Modelled from the spec: the external-configuration option (`StoreConfig` in the
tests), which the source does not define; the `readConfig` of the source has an
empty body, returns nothing and is called nowhere. The spec: the option "must fail
loudly when invoked ... rather than silently no-op", its loader is "a capability
whose load operation fails with `ConfigurationUnavailable` until genuinely
implemented", and it must never "return an empty-but-successful configuration".
The option is applied to the finder assembled so far and fails. -/
def StoreConfig (file : String) : FileSystemFinder → Except FsError FileSystemFinder :=
  fun _ => .error (ConfigurationUnavailable file)

/-- Modelled from the spec: discovery on a finder built with the options `opts` and
the external-configuration option: "all errors abort the in-progress operation and
are returned to the caller", so the failure of the option is what discovery returns,
and a configuration that is loaded is handed to `Find`. -/
def FindWithConfig (w : World) (builtin : List FileType) (opts : List FSFinderOptions)
    (file : String) : Except FsError (List FileMetadata) :=
  match StoreConfig file (FileSystemFinderInit builtin opts) with
  | .error e => .error e
  | .ok fsf => Find w fsf

/-- The package directory in which the tests run: no configuration file at
`../../test/fixtures/notHere.yaml`. -/
def worldConfig : World :=
  worldOf [(".", .dir "." none [.file "finder_test.go", .file "fsfinder.go"])]
    (.ok "/repo/pkg/finder")

mutual
/-- The number of directory levels nested below a directory. -/
def levels : Node → Nat
  | .file _ => 0
  | .dir _ _ children => levelsEntries children
/-- The number of directory levels that the entries of a directory add. -/
def levelsEntries : List Node → Nat
  | [] => 0
  | d :: ds => max (if d.isDir then levels d + 1 else 0) (levelsEntries ds)
end

mutual
/-- No entry below the node has a separator in its name. -/
def namesOk : Node → Bool
  | .file _ => true
  | .dir _ _ children => namesOkEntries children
/-- No entry of the list, nor any below, has a separator in its name. -/
def namesOkEntries : List Node → Bool
  | [] => true
  | d :: ds => !d.name.data.contains sep && namesOk d && namesOkEntries ds
end

/-- The largest value of a Go `int`. -/
def maxInt : Int := 2 ^ 63 - 1

/-- A directory `a/b` holding one JSON file directly and one in a subdirectory. -/
def worldNested : World :=
  worldOf [("a/b", .dir "b" none [.dir "c" none [.file "low.json"], .file "top.json"])]
    (.ok "/repo")

/-- A finder on `a/b` with the given depth. -/
def finderNested (depth : Option Int) : FileSystemFinder :=
  { PathRoots := ["a/b"], FileTypes := [jsonType, yamlType], ExcludeDirs := [],
    ExcludeFileTypes := [], Depth := depth, AdditionalFiles := [] }


/-! ## Further concrete filesystems and finders -/

/-- A registry entry that lists the empty extension. -/
def plainType : FileType := ⟨"plain", [""], 3⟩

/-- A finder whose registry lists the empty extension. -/
def finderPlain : FileSystemFinder :=
  FileSystemFinderInit [jsonType] [WithPathRoots ["proj"], WithFileTypes [plainType]]

/-- A finder built with `WithPathRoots()` among other options. -/
def finderNoRoots : FileSystemFinder :=
  FileSystemFinderInit [jsonType, yamlType]
    [WithPathRoots [], WithExcludeDirs ["subdir"], WithDepth 3]

/-- The two JSON files of `Test_FileSystemFinderMultipleFinder`, each named by a
root. -/
def worldFiles : World :=
  worldOf
    [("../../test/fixtures/subdir/good.json", .file "good.json"),
     ("../../test/fixtures/good.json", .file "good.json")]
    (.ok "/repo/pkg/finder")

/-- A finder on one of these files whose `ExcludeDirs` holds the name of the file. -/
def finderFileRoot : FileSystemFinder :=
  FileSystemFinderInit [jsonType, yamlType]
    [WithPathRoots ["../../test/fixtures/good.json"], WithExcludeDirs ["good.json"],
      WithDepth (-1)]

/-- A spec cut at its first colon: what stands before it and what stands after. -/
def cutAtColon : List Char → Option (List Char × List Char)
  | [] => none
  | c :: cs =>
    if c = ':' then some ([], cs)
    else
      match cutAtColon cs with
      | some (k, v) => some (c :: k, v)
      | none => none

/-- The name and the extension of a spec `name:extension` with exactly one colon. -/
def specParts (spec : String) : Option (String × String) :=
  match cutAtColon spec.data with
  | some (k, v) => if ':' ∈ v then none else some (⟨k⟩, ⟨v⟩)
  | none => none

/-- The extension that a list of specs gives to a name: that of the last spec with
exactly one colon that has this name. -/
def specValue (files : List String) (name : String) : Option String :=
  (files.filterMap specParts).reverse.lookup name

/-- The specs used in the examples: two for `Makefile`, one without colon, one with
two colons. -/
def exampleSpecs : List String :=
  ["Makefile:make", "Dockerfile", "a:b:c", "Makefile:mk", "Jenkinsfile:groovy"]

mutual
/-- Every directory of the tree can be read. -/
def readable : Node → Bool
  | .file _ => true
  | .dir _ readErr children => readErr.isNone && readableEntries children
/-- Every directory among or below the entries can be read. -/
def readableEntries : List Node → Bool
  | [] => true
  | d :: ds => readable d && readableEntries ds
end

/-- The matches of a root, none when `findOne` fails. -/
def matchesOf (w : World) (fsf : FileSystemFinder) (r : String) : List FileMetadata :=
  match findOne w fsf r with
  | .ok ms => ms
  | .error _ => []

/-- The fixtures walked without exclusion. -/
def finderFixtures : FileSystemFinder :=
  FileSystemFinderInit [jsonType, yamlType] [WithPathRoots ["fixtures"]]

/-- The smallest value of a Go `int`. -/
def minInt : Int := -(2 ^ 63)

/-- A directory named by `a/b` and by `a/b/`, with files at three levels. -/
def worldTrailing : World :=
  worldOf
    [("a/b", .dir "b" none
        [.dir "c" none [.dir "d" none [.file "deep.json"], .file "mid.json"],
         .file "top.json"]),
     ("a/b/", .dir "b" none
        [.dir "c" none [.dir "d" none [.file "deep.json"], .file "mid.json"],
         .file "top.json"])]
    (.ok "/repo")

/-- A directory with a file and a subdirectory that cannot be read. -/
def worldLocked : World :=
  worldOf
    [("r", .dir "r" none
        [.dir "locked" (some ⟨"open", "r/locked", 13⟩) [], .file "top.json"])]
    (.ok "/repo")

/-- A finder on the root `r` with the given depth. -/
def finderLocked (depth : Option Int) : FileSystemFinder :=
  { PathRoots := ["r"], FileTypes := [jsonType, yamlType], ExcludeDirs := [],
    ExcludeFileTypes := [], Depth := depth, AdditionalFiles := [] }
/-! ## Paths: `filepath.Clean` and `filepath.Join` -/

theorem splitAtChar_ne_nil (d : Char) : ∀ s : List Char, splitAtChar d s ≠ []
  | [] => by simp [splitAtChar]
  | c :: cs => by
    rw [splitAtChar]
    split
    · simp
    · split <;> simp

theorem splitAtChar_length (d : Char) :
    ∀ s : List Char, (splitAtChar d s).length = s.count d + 1
  | [] => by simp [splitAtChar]
  | c :: cs => by
    have ih := splitAtChar_length d cs
    rw [splitAtChar]
    by_cases h : c = d
    · subst h
      simp [ih]
    · rw [if_neg h, List.count_cons_of_ne (fun hh => h hh.symm)]
      cases hs : splitAtChar d cs with
      | nil => exact absurd hs (splitAtChar_ne_nil d cs)
      | cons a t => rw [hs] at ih; simpa using ih

theorem splitAtChar_not_mem (d : Char) :
    ∀ (s : List Char), ∀ e ∈ splitAtChar d s, d ∉ e
  | [], e, he => by
    simp [splitAtChar] at he
    subst he
    simp
  | c :: cs, e, he => by
    have ih := splitAtChar_not_mem d cs
    rw [splitAtChar] at he
    by_cases h : c = d
    · rw [if_pos h] at he
      rcases List.mem_cons.mp he with rfl | he
      · simp
      · exact ih e he
    · rw [if_neg h] at he
      cases hs : splitAtChar d cs with
      | nil => exact absurd hs (splitAtChar_ne_nil d cs)
      | cons a t =>
        rw [hs] at he ih
        rcases List.mem_cons.mp he with rfl | he
        · intro hm
          rcases List.mem_cons.mp hm with hm | hm
          · exact h hm.symm
          · exact ih a (List.mem_cons_self _ _) hm
        · exact ih e (List.mem_cons_of_mem _ he)

theorem splitAtChar_of_not_mem (d : Char) :
    ∀ (s : List Char), d ∉ s → splitAtChar d s = [s]
  | [], _ => by simp [splitAtChar]
  | c :: cs, h => by
    have hc : c ≠ d := fun hh => h (by simp [hh])
    have hcs : d ∉ cs := fun hh => h (List.mem_cons_of_mem _ hh)
    rw [splitAtChar, if_neg hc, splitAtChar_of_not_mem d cs hcs]

theorem splitAtChar_append (d : Char) :
    ∀ (s t : List Char), d ∉ s → splitAtChar d (s ++ d :: t) = s :: splitAtChar d t
  | [], t, _ => by simp [splitAtChar]
  | c :: cs, t, h => by
    have hc : c ≠ d := fun hh => h (by simp [hh])
    have hcs : d ∉ cs := fun hh => h (List.mem_cons_of_mem _ hh)
    rw [List.cons_append, splitAtChar, if_neg hc, splitAtChar_append d cs t hcs]

theorem count_joinElems :
    ∀ (es : List (List Char)), (∀ e ∈ es, sep ∉ e) →
      (joinElems es).count sep = es.length - 1
  | [], _ => by simp [joinElems]
  | [c], h => by
    simp only [joinElems, List.length_singleton, Nat.sub_self]
    exact List.count_eq_zero.mpr (h c (List.mem_cons_self _ _))
  | c :: c2 :: rest, h => by
    have ih := count_joinElems (c2 :: rest) (fun e he => h e (List.mem_cons_of_mem _ he))
    have hc : c.count sep = 0 := List.count_eq_zero.mpr (h c (List.mem_cons_self _ _))
    rw [joinElems, List.count_append, List.count_cons_self, ih, hc]
    · simp
    · simp

theorem cleanStep_length (rooted : Bool) (out : List (List Char)) (c : List Char) :
    (cleanStep rooted out c).length ≤ out.length + 1 := by
  unfold cleanStep
  split
  · omega
  · split
    · split
      · split <;> simp
      · split
        · simp
        · simp; omega
    · simp

theorem cleanStep_length_empty (rooted : Bool) (out : List (List Char)) :
    cleanStep rooted out [] = out := by
  simp [cleanStep]

theorem cleanStep_mem (rooted : Bool) (out : List (List Char)) (c : List Char) :
    ∀ e ∈ cleanStep rooted out c, e ∈ out ∨ e = c := by
  intro e he
  unfold cleanStep at he
  split at he
  · exact Or.inl he
  · split at he
    · split at he
      · split at he
        · cases he
        · simp at he; exact Or.inr he
      · split at he
        · rcases List.mem_cons.mp he with h | h
          · exact Or.inr h
          · exact Or.inl h
        · exact Or.inl (List.mem_cons_of_mem _ he)
    · rcases List.mem_cons.mp he with h | h
      · exact Or.inr h
      · exact Or.inl h

theorem foldl_cleanStep_length (rooted : Bool) :
    ∀ (l : List (List Char)) (out : List (List Char)),
      (l.foldl (cleanStep rooted) out).length ≤ out.length + l.length
  | [], out => by simp
  | c :: l, out => by
    have h1 := foldl_cleanStep_length rooted l (cleanStep rooted out c)
    have h2 := cleanStep_length rooted out c
    simp only [List.foldl_cons, List.length_cons]
    omega

theorem foldl_cleanStep_mem (rooted : Bool) :
    ∀ (l : List (List Char)) (out : List (List Char)),
      ∀ e ∈ l.foldl (cleanStep rooted) out, e ∈ out ∨ e ∈ l
  | [], out, e, he => Or.inl he
  | c :: l, out, e, he => by
    rw [List.foldl_cons] at he
    rcases foldl_cleanStep_mem rooted l _ e he with h | h
    · rcases cleanStep_mem rooted out c e h with h1 | h1
      · exact Or.inl h1
      · exact Or.inr (by rw [h1]; exact List.mem_cons_self _ _)
    · exact Or.inr (List.mem_cons_of_mem _ h)

theorem cleanElems_not_mem (rooted : Bool) (s : List Char) :
    ∀ e ∈ cleanElems rooted s, sep ∉ e := by
  intro e he
  unfold cleanElems at he
  rw [List.mem_reverse] at he
  rcases foldl_cleanStep_mem rooted _ _ e he with h | h
  · cases h
  · exact splitAtChar_not_mem sep s e h

/-- Cleaning does not add separators. -/
theorem count_cleanChars (s : List Char) : (cleanChars s).count sep ≤ s.count sep := by
  cases s with
  | nil => simp [cleanChars, sep]
  | cons c t =>
    unfold cleanChars
    simp only
    by_cases hc : c = sep
    · subst hc
      rw [if_pos rfl, List.count_cons_self, List.count_cons_self,
        count_joinElems _ (cleanElems_not_mem true _)]
      have h1 : (cleanElems true (sep :: t)).length ≤ t.count sep + 1 := by
        unfold cleanElems splitSep
        rw [List.length_reverse, splitAtChar, if_pos rfl, List.foldl_cons,
          cleanStep_length_empty]
        have := foldl_cleanStep_length true (splitAtChar sep t) []
        rw [splitAtChar_length] at this
        simpa using this
      omega
    · rw [if_neg hc]
      have h1 : (cleanElems false (c :: t)).length ≤ (c :: t).count sep + 1 := by
        unfold cleanElems splitSep
        rw [List.length_reverse]
        have := foldl_cleanStep_length false (splitAtChar sep (c :: t)) []
        rw [splitAtChar_length] at this
        simpa using this
      cases he : cleanElems false (c :: t) with
      | nil => simp [sep]
      | cons e es =>
        simp only
        rw [← he, count_joinElems _ (cleanElems_not_mem false _)]
        omega

/-- Joining a name without separator to a path adds at most one separator. -/
theorem sepCount_Join (a b : String) (hb : sep ∉ b.data) :
    sepCount (Join a b) ≤ sepCount a + 1 := by
  have hb0 : b.data.count sep = 0 := List.count_eq_zero.mpr hb
  unfold Join sepCount
  split
  · have := count_cleanChars (a.data ++ sep :: b.data)
    simp only [List.count_append, List.count_cons_self, hb0] at this
    simpa using this
  · split
    · have := count_cleanChars b.data
      simp only [hb0] at this
      simp only
      omega
    · simp

theorem cleanStep_ne_nil (rooted : Bool) (out : List (List Char)) (c : List Char)
    (hout : ∀ e ∈ out, e ≠ []) : ∀ e ∈ cleanStep rooted out c, e ≠ [] := by
  intro e he
  unfold cleanStep at he
  split at he
  · exact hout e he
  · rename_i hc
    split at he
    · rename_i hdd
      split at he
      · split at he
        · cases he
        · simp at he; subst he; rw [hdd]; simp
      · split at he
        · rcases List.mem_cons.mp he with h | h
          · rw [h, hdd]; simp
          · exact hout e h
        · exact hout e (List.mem_cons_of_mem _ he)
    · rcases List.mem_cons.mp he with h | h
      · rw [h]; exact fun hh => hc (Or.inl hh)
      · exact hout e h

theorem foldl_cleanStep_ne_nil (rooted : Bool) :
    ∀ (l out : List (List Char)), (∀ e ∈ out, e ≠ []) →
      ∀ e ∈ l.foldl (cleanStep rooted) out, e ≠ []
  | [], _, hout => hout
  | c :: l, out, hout => by
    rw [List.foldl_cons]
    exact foldl_cleanStep_ne_nil rooted l _ (cleanStep_ne_nil rooted out c hout)

theorem cleanElems_ne_nil (rooted : Bool) (s : List Char) :
    ∀ e ∈ cleanElems rooted s, e ≠ [] := by
  intro e he
  unfold cleanElems at he
  rw [List.mem_reverse] at he
  exact foldl_cleanStep_ne_nil rooted _ [] (by simp) e he

theorem cleanStep_true_normal (out : List (List Char)) (c : List Char)
    (hout : ∀ e ∈ out, NormalElem e) (hc : sep ∉ c) :
    ∀ e ∈ cleanStep true out c, NormalElem e := by
  intro e he
  unfold cleanStep at he
  split at he
  · exact hout e he
  · rename_i h1
    split at he
    · split at he
      · simp at he
      · split at he
        · rename_i top rest htop
          exact absurd htop (hout top (List.mem_cons_self _ _)).2.2.1
        · exact hout e (List.mem_cons_of_mem _ he)
    · rename_i h2
      rcases List.mem_cons.mp he with h | h
      · rw [h]
        exact ⟨fun hh => h1 (Or.inl hh), fun hh => h1 (Or.inr hh), h2, hc⟩
      · exact hout e h

theorem foldl_cleanStep_true_normal :
    ∀ (l out : List (List Char)), (∀ e ∈ out, NormalElem e) → (∀ c ∈ l, sep ∉ c) →
      ∀ e ∈ l.foldl (cleanStep true) out, NormalElem e
  | [], _, hout, _ => hout
  | c :: l, out, hout, hl => by
    rw [List.foldl_cons]
    exact foldl_cleanStep_true_normal l _
      (cleanStep_true_normal out c hout (hl c (List.mem_cons_self _ _)))
      (fun c1 h => hl c1 (List.mem_cons_of_mem _ h))

theorem cleanElems_true_normal (s : List Char) :
    ∀ e ∈ cleanElems true s, NormalElem e := by
  intro e he
  unfold cleanElems at he
  rw [List.mem_reverse] at he
  exact foldl_cleanStep_true_normal _ [] (by simp) (splitAtChar_not_mem sep s) e he

theorem foldl_cleanStep_of_normal (rooted : Bool) :
    ∀ (es out : List (List Char)), (∀ e ∈ es, NormalElem e) →
      es.foldl (cleanStep rooted) out = es.reverse ++ out
  | [], out, _ => by simp
  | c :: es, out, h => by
    obtain ⟨h1, h2, h3, _⟩ := h c (List.mem_cons_self _ _)
    have hstep : cleanStep rooted out c = c :: out := by
      simp [cleanStep, h1, h2, h3]
    rw [List.foldl_cons, hstep,
      foldl_cleanStep_of_normal rooted es _ (fun e he => h e (List.mem_cons_of_mem _ he))]
    simp

theorem splitSep_joinElems :
    ∀ (es : List (List Char)), es ≠ [] → (∀ e ∈ es, sep ∉ e) →
      splitSep (joinElems es) = es
  | [], h, _ => absurd rfl h
  | [c], _, h => by
    simp only [joinElems, splitSep]
    exact splitAtChar_of_not_mem sep c (h c (List.mem_cons_self _ _))
  | c :: c2 :: rest, _, h => by
    have ih := splitSep_joinElems (c2 :: rest) (by simp)
      (fun e he => h e (List.mem_cons_of_mem _ he))
    unfold splitSep at ih ⊢
    rw [joinElems, splitAtChar_append sep c _ (h c (List.mem_cons_self _ _)), ih]
    simp

/-- A cleaned rooted path is left unchanged by a second cleaning. -/
theorem cleanChars_rooted_fixed (es : List (List Char)) (h : ∀ e ∈ es, NormalElem e) :
    cleanChars (sep :: joinElems es) = sep :: joinElems es := by
  unfold cleanChars
  simp only [if_true]
  congr 1
  unfold cleanElems splitSep
  rw [splitAtChar, if_pos rfl, List.foldl_cons, cleanStep_length_empty]
  cases es with
  | nil => simp [joinElems, splitAtChar, cleanStep]
  | cons e es =>
    have := splitSep_joinElems (e :: es) (by simp) (fun x hx => (h x hx).2.2.2)
    unfold splitSep at this
    rw [this, foldl_cleanStep_of_normal true _ _ h]
    simp

theorem joinElems_head (e : List Char) (es : List (List Char)) (he : e ≠ []) :
    ∃ c t, e = c :: t ∧ ∃ t1, joinElems (e :: es) = c :: t1 := by
  cases e with
  | nil => exact absurd rfl he
  | cons c t =>
    refine ⟨c, t, rfl, ?_⟩
    cases es with
    | nil => exact ⟨t, rfl⟩
    | cons e2 es => exact ⟨t ++ sep :: joinElems (e2 :: es), rfl⟩

/-- A cleaned path that is absolute is a fixed point of `filepath.Clean`. -/
theorem cleanChars_idem_of_abs (x : List Char) (c : Char) (t : List Char)
    (h : cleanChars x = c :: t) (hc : c = sep) :
    cleanChars (cleanChars x) = cleanChars x := by
  cases x with
  | nil => simp [cleanChars] at h; rw [hc] at h; exact absurd h.1 (by decide)
  | cons a u =>
    by_cases ha : a = sep
    · have hx : cleanChars (a :: u) = sep :: joinElems (cleanElems true (a :: u)) := by
        unfold cleanChars
        simp [ha]
      rw [hx]
      exact cleanChars_rooted_fixed _ (cleanElems_true_normal _)
    · exfalso
      unfold cleanChars at h
      simp only [if_neg ha] at h
      cases hel : cleanElems false (a :: u) with
      | nil =>
        rw [hel] at h
        simp only at h
        injection h with h1 _
        rw [hc] at h1
        exact absurd h1 (by decide)
      | cons e es =>
        rw [hel] at h
        simp only at h
        have hne : e ≠ [] := cleanElems_ne_nil false (a :: u) e (by rw [hel]; simp)
        have hnm : sep ∉ e := cleanElems_not_mem false (a :: u) e (by rw [hel]; simp)
        obtain ⟨c1, t1, he, t2, hj⟩ := joinElems_head e es hne
        rw [hj] at h
        injection h with h1 _
        apply hnm
        rw [he, h1, hc]
        exact List.mem_cons_self _ _

/-- The absolute form of a path is its own absolute form. -/
theorem World.abs_fixed (w : World) (p a : String) (h : w.abs p = .ok a)
    (ha : IsAbs a = true) : w.abs a = .ok a := by
  have key : ∀ x : List Char, a = ⟨cleanChars x⟩ → w.abs a = .ok a := by
    intro x hx
    unfold World.abs
    rw [if_pos ha]
    congr 1
    unfold Clean
    subst hx
    unfold IsAbs at ha
    simp only at ha
    cases hcl : cleanChars x with
    | nil => rw [hcl] at ha; simp at ha
    | cons c t =>
      rw [hcl] at ha
      simp only [beq_iff_eq] at ha
      rw [← hcl, cleanChars_idem_of_abs x c t hcl ha]
  unfold World.abs at h
  split at h
  · injection h with h
    exact key p.data (by rw [← h]; rfl)
  · cases hg : w.getwd with
    | error e => rw [hg] at h; cases h
    | ok wd =>
      rw [hg] at h
      simp only at h
      injection h with h
      unfold Join at h
      split at h
      · exact key _ h.symm
      · split at h
        · exact key _ h.symm
        · subst h
          simp [IsAbs] at ha

/-! ## The walk -/

theorem walkFn_file (fsf : FileSystemFinder) (md : Int) (path name : String) :
    walkFn fsf md path name false none = .next (matchFile fsf name path) := by
  simp [walkFn, skipCond]

theorem walkFn_dir (fsf : FileSystemFinder) (md : Int) (path name : String) :
    walkFn fsf md path name true none =
      if skipCond fsf md name path true then .skipDir else .next [] := by
  simp [walkFn]

theorem walkFn_err (fsf : FileSystemFinder) (md : Int) (path name : String) (b : Bool)
    (e : FsError) : walkFn fsf md path name b (some e) = .fail e := by
  simp [walkFn]

theorem walkEntries_ne_skip (fsf : FileSystemFinder) (md : Int) (path : String)
    (ds : List Node) : walkEntries fsf md path ds ≠ .skipDir := by
  cases ds with
  | nil => simp [walkEntries]
  | cons d ds =>
    rw [walkEntries]
    split
    · simp
    · simp
    · split <;> simp

theorem walkDir_file (fsf : FileSystemFinder) (md : Int) (path name : String) :
    walkDir fsf md path (.file name) = .next (matchFile fsf name path) := by
  rw [walkDir, walkFn_file]

theorem walkDir_dir (fsf : FileSystemFinder) (md : Int) (path name : String)
    (re : Option FsError) (ch : List Node) :
    walkDir fsf md path (.dir name re ch) =
      if skipCond fsf md name path true then .next []
      else
        match re with
        | some e => .fail e
        | none => walkEntries fsf md path ch := by
  rw [walkDir, walkFn_dir]
  by_cases h : skipCond fsf md name path true = true
  · simp [h]
  · simp only [h, if_false, Bool.false_eq_true]
    cases re with
    | some e => simp [walkFn_err]
    | none =>
      simp only
      have hne := walkEntries_ne_skip fsf md path ch
      cases hw : walkEntries fsf md path ch with
      | next ms => simp
      | skipDir => exact absurd hw hne
      | fail e => simp

theorem walkDir_ne_skip (fsf : FileSystemFinder) (md : Int) (path : String)
    (n : Node) : walkDir fsf md path n ≠ .skipDir := by
  cases n with
  | file name => rw [walkDir_file]; simp
  | dir name re ch =>
    rw [walkDir_dir]
    split
    · simp
    · split
      · simp
      · exact walkEntries_ne_skip fsf md path ch

theorem walkEntries_cons (fsf : FileSystemFinder) (md : Int) (path : String)
    (d : Node) (ds : List Node) :
    walkEntries fsf md path (d :: ds) =
      match walkDir fsf md (Join path d.name) d with
      | .fail e => .fail e
      | .skipDir => .next []
      | .next ms =>
        match walkEntries fsf md path ds with
        | .fail e => .fail e
        | .skipDir => .next ms
        | .next rest => .next (ms ++ rest) := by
  rw [walkEntries]


theorem WalkDir_eq (w : World) (fsf : FileSystemFinder) (md : Int) (root : String) :
    WalkDir w fsf md root =
      match w.lstat root with
      | .error e => .fail e
      | .ok info => walkDir fsf md root info := by
  unfold WalkDir
  cases h : w.lstat root with
  | error e => simp [walkFn_err]
  | ok info =>
    simp only
    have := walkDir_ne_skip fsf md root info
    cases hw : walkDir fsf md root info with
    | next ms => rfl
    | skipDir => exact absurd hw this
    | fail e => rfl

theorem findOne_eq (w : World) (fsf : FileSystemFinder) (root : String) :
    findOne w fsf root =
      match w.stat root with
      | some e =>
        if e.isNotExist then .error e
        else (WalkDir w fsf (maxDepthOf fsf root) root).toExcept
      | none => (WalkDir w fsf (maxDepthOf fsf root) root).toExcept := by
  unfold findOne
  cases w.stat root with
  | some e =>
    simp only
    split
    · rfl
    · cases WalkDir w fsf (maxDepthOf fsf root) root <;> rfl
  | none =>
    simp only
    cases WalkDir w fsf (maxDepthOf fsf root) root <;> rfl

theorem findOne_ok_walk (w : World) (fsf : FileSystemFinder) (root : String)
    (ms : List FileMetadata) (h : findOne w fsf root = .ok ms) :
    ∃ info, w.lstat root = .ok info ∧
      walkDir fsf (maxDepthOf fsf root) root info = .next ms := by
  rw [findOne_eq] at h
  have key : (WalkDir w fsf (maxDepthOf fsf root) root).toExcept = .ok ms := by
    cases hs : w.stat root with
    | some e =>
      rw [hs] at h
      simp only at h
      split at h
      · cases h
      · exact h
    | none => rw [hs] at h; exact h
  rw [WalkDir_eq] at key
  cases hl : w.lstat root with
  | error e => rw [hl] at key; cases key
  | ok info =>
    rw [hl] at key
    refine ⟨info, rfl, ?_⟩
    simp only at key
    have := walkDir_ne_skip fsf (maxDepthOf fsf root) root info
    cases hw : walkDir fsf (maxDepthOf fsf root) root info with
    | next ms1 => rw [hw] at key; simp [WalkAction.toExcept] at key; rw [key]
    | skipDir => exact absurd hw this
    | fail e => rw [hw] at key; cases key

/-- Every entry of `matchFile` carries the name and the path it was called with. -/
theorem matchFile_mem (fsf : FileSystemFinder) (name path : String) (m : FileMetadata)
    (hm : m ∈ matchFile fsf name path) :
    m.Name = name ∧ m.Path = path ∧
      walkFileExtension fsf name path ∉ fsf.ExcludeFileTypes ∧
      matchFileType fsf.FileTypes (ToLower (walkFileExtension fsf name path)) =
        some m.FileType := by
  unfold matchFile at hm
  simp only at hm
  split at hm
  · cases hm
  · rename_i hex
    split at hm
    · rename_i ft hft
      simp at hm
      subst hm
      exact ⟨rfl, rfl, hex, hft⟩
    · cases hm

mutual
/-- Every entry emitted by the walk of a tree is the entry of a file of that tree
that lies under no excluded directory, and is what `matchFile` makes of it. -/
theorem walkDir_located (fsf : FileSystemFinder) (md : Int) :
    ∀ (n : Node) (path : String) (ms : List FileMetadata),
      walkDir fsf md path n = .next ms → ∀ m ∈ ms,
        ∃ dirs, FileAt path n dirs m.Name m.Path ∧ (∀ d ∈ dirs, d ∉ fsf.ExcludeDirs) ∧
          m ∈ matchFile fsf m.Name m.Path
  | .file name, path, ms, h, m, hm => by
    rw [walkDir_file] at h
    injection h with h
    subst h
    obtain ⟨h1, h2, _, _⟩ := matchFile_mem fsf name path m hm
    rw [h1, h2]
    exact ⟨[], FileAt.file path name, by simp, hm⟩
  | .dir name re ch, path, ms, h, m, hm => by
    rw [walkDir_dir] at h
    by_cases hs : skipCond fsf md name path true = true
    · simp [hs] at h
      subst h
      cases hm
    · simp only [hs, if_false, Bool.false_eq_true] at h
      cases re with
      | some e => cases h
      | none =>
        simp only at h
        obtain ⟨d, hd, dirs, hat, hex, hmf⟩ := walkEntries_located fsf md ch path ms h m hm
        refine ⟨name :: dirs, FileAt.dir path name none ch d dirs _ _ hd hat, ?_, hmf⟩
        intro x hx
        rcases List.mem_cons.mp hx with rfl | hx
        · intro hmem
          apply hs
          simp [skipCond, hmem]
        · exact hex x hx
/-- The same for the entries of a directory. -/
theorem walkEntries_located (fsf : FileSystemFinder) (md : Int) :
    ∀ (ds : List Node) (path : String) (ms : List FileMetadata),
      walkEntries fsf md path ds = .next ms → ∀ m ∈ ms,
        ∃ d ∈ ds, ∃ dirs, FileAt (Join path d.name) d dirs m.Name m.Path ∧
          (∀ x ∈ dirs, x ∉ fsf.ExcludeDirs) ∧ m ∈ matchFile fsf m.Name m.Path
  | [], path, ms, h, m, hm => by
    simp [walkEntries] at h
    subst h
    cases hm
  | d :: ds, path, ms, h, m, hm => by
    rw [walkEntries_cons] at h
    cases h1 : walkDir fsf md (Join path d.name) d with
    | fail e => rw [h1] at h; cases h
    | skipDir => exact absurd h1 (walkDir_ne_skip _ _ _ _)
    | next ms1 =>
      rw [h1] at h
      simp only at h
      cases h2 : walkEntries fsf md path ds with
      | fail e => rw [h2] at h; cases h
      | skipDir => exact absurd h2 (walkEntries_ne_skip _ _ _ _)
      | next ms2 =>
        rw [h2] at h
        simp only at h
        injection h with h
        subst h
        rcases List.mem_append.mp hm with hm | hm
        · obtain ⟨dirs, hat, hex⟩ := walkDir_located fsf md d (Join path d.name) ms1 h1 m hm
          exact ⟨d, List.mem_cons_self _ _, dirs, hat, hex⟩
        · obtain ⟨d1, hd1, dirs, hat, hex⟩ := walkEntries_located fsf md ds path ms2 h2 m hm
          exact ⟨d1, List.mem_cons_of_mem _ hd1, dirs, hat, hex⟩
end

/-! ## The loops of `Find` -/

theorem addMatches_sub (w : World) :
    ∀ (ms : List FileMetadata) (seen : List String) (uniq : List FileMetadata)
      (st : List String × List FileMetadata),
      addMatches w (seen, uniq) ms = .ok st → ∀ m ∈ st.2, m ∈ uniq ∨ m ∈ ms
  | [], seen, uniq, st, h, m, hm => by
    simp [addMatches] at h
    subst h
    exact Or.inl hm
  | x :: ms, seen, uniq, st, h, m, hm => by
    rw [addMatches] at h
    cases ha : w.abs x.Path with
    | error e => rw [ha] at h; cases h
    | ok a =>
      rw [ha] at h
      simp only at h
      by_cases hs : a ∈ seen
      · rw [if_pos hs] at h
        rcases addMatches_sub w ms seen uniq st h m hm with h1 | h1
        · exact Or.inl h1
        · exact Or.inr (List.mem_cons_of_mem _ h1)
      · rw [if_neg hs] at h
        rcases addMatches_sub w ms (a :: seen) (uniq ++ [x]) st h m hm with h1 | h1
        · rcases List.mem_append.mp h1 with h2 | h2
          · exact Or.inl h2
          · simp at h2
            subst h2
            exact Or.inr (List.mem_cons_self _ _)
        · exact Or.inr (List.mem_cons_of_mem _ h1)

/-- Every entry of the result of the outer loop was in the state at its start or is a
match of one of the roots. -/
theorem findRoots_sub (w : World) (fsf : FileSystemFinder) :
    ∀ (roots : List String) (st : List String × List FileMetadata)
      (res : List FileMetadata),
      findRoots w fsf st roots = .ok res → ∀ m ∈ res,
        m ∈ st.2 ∨ ∃ r ∈ roots, ∃ ms, findOne w fsf r = .ok ms ∧ m ∈ ms
  | [], st, res, h, m, hm => by
    simp [findRoots] at h
    subst h
    exact Or.inl hm
  | r :: roots, st, res, h, m, hm => by
    rw [findRoots] at h
    cases h1 : findOne w fsf r with
    | error e => rw [h1] at h; cases h
    | ok ms =>
      rw [h1] at h
      simp only at h
      cases h2 : addMatches w st ms with
      | error e => rw [h2] at h; cases h
      | ok st1 =>
        rw [h2] at h
        simp only at h
        rcases findRoots_sub w fsf roots st1 res h m hm with h3 | ⟨r1, hr1, ms1, hf, hmem⟩
        · rcases addMatches_sub w ms st.1 st.2 st1 h2 m h3 with h4 | h4
          · exact Or.inl h4
          · exact Or.inr ⟨r, List.mem_cons_self _ _, ms, h1, h4⟩
        · exact Or.inr ⟨r1, List.mem_cons_of_mem _ hr1, ms1, hf, hmem⟩

theorem Find_sub (w : World) (fsf : FileSystemFinder) (res : List FileMetadata)
    (h : Find w fsf = .ok res) (m : FileMetadata) (hm : m ∈ res) :
    ∃ r ∈ fsf.PathRoots, ∃ ms, findOne w fsf r = .ok ms ∧ m ∈ ms := by
  rcases findRoots_sub w fsf fsf.PathRoots ([], []) res h m hm with h1 | h1
  · cases h1
  · exact h1

/-! ## Removing later occurrences -/

section FirstOccurrences

variable {κ : Type} [DecidableEq κ] (key : FileMetadata → κ)

theorem firstOccurrences_cons_of_mem (earlier : List FileMetadata) (m : FileMetadata)
    (ms : List FileMetadata) (h : key m ∈ earlier.map key) :
    firstOccurrences key earlier (m :: ms) = firstOccurrences key (earlier ++ [m]) ms := by
  rw [firstOccurrences]
  simp [h]

theorem firstOccurrences_cons_of_not_mem (earlier : List FileMetadata) (m : FileMetadata)
    (ms : List FileMetadata) (h : key m ∉ earlier.map key) :
    firstOccurrences key earlier (m :: ms) =
      m :: firstOccurrences key (earlier ++ [m]) ms := by
  rw [firstOccurrences]
  simp [h]

theorem firstOccurrences_append :
    ∀ (a b earlier : List FileMetadata),
      firstOccurrences key earlier (a ++ b) =
        firstOccurrences key earlier a ++ firstOccurrences key (earlier ++ a) b
  | [], b, earlier => by simp [firstOccurrences]
  | x :: a, b, earlier => by
    by_cases h : key x ∈ earlier.map key
    · rw [List.cons_append, firstOccurrences_cons_of_mem key _ _ _ h,
        firstOccurrences_cons_of_mem key _ _ _ h, firstOccurrences_append a b]
      simp
    · rw [List.cons_append, firstOccurrences_cons_of_not_mem key _ _ _ h,
        firstOccurrences_cons_of_not_mem key _ _ _ h, firstOccurrences_append a b]
      simp

theorem firstOccurrences_sublist :
    ∀ (l earlier : List FileMetadata), (firstOccurrences key earlier l).Sublist l
  | [], earlier => by simp [firstOccurrences]
  | x :: l, earlier => by
    by_cases h : key x ∈ earlier.map key
    · rw [firstOccurrences_cons_of_mem key _ _ _ h]
      exact (firstOccurrences_sublist l _).cons _
    · rw [firstOccurrences_cons_of_not_mem key _ _ _ h]
      exact (firstOccurrences_sublist l _).cons₂ _

theorem firstOccurrences_not_earlier :
    ∀ (l earlier : List FileMetadata), ∀ m ∈ firstOccurrences key earlier l,
      key m ∉ earlier.map key
  | [], earlier, m, hm => by simp [firstOccurrences] at hm
  | x :: l, earlier, m, hm => by
    by_cases h : key x ∈ earlier.map key
    · rw [firstOccurrences_cons_of_mem key _ _ _ h] at hm
      have := firstOccurrences_not_earlier l _ m hm
      intro hc
      apply this
      simp only [List.map_append, List.mem_append]
      exact Or.inl hc
    · rw [firstOccurrences_cons_of_not_mem key _ _ _ h] at hm
      rcases List.mem_cons.mp hm with rfl | hm
      · exact h
      · have := firstOccurrences_not_earlier l _ m hm
        intro hc
        apply this
        simp only [List.map_append, List.mem_append]
        exact Or.inl hc

theorem firstOccurrences_pairwise :
    ∀ (l earlier : List FileMetadata),
      (firstOccurrences key earlier l).Pairwise (fun a b => key a ≠ key b)
  | [], earlier => by simp [firstOccurrences]
  | x :: l, earlier => by
    by_cases h : key x ∈ earlier.map key
    · rw [firstOccurrences_cons_of_mem key _ _ _ h]
      exact firstOccurrences_pairwise l _
    · rw [firstOccurrences_cons_of_not_mem key _ _ _ h]
      refine List.Pairwise.cons ?_ (firstOccurrences_pairwise l _)
      intro m hm heq
      have := firstOccurrences_not_earlier key l _ m hm
      apply this
      simp only [List.map_append, List.mem_append, List.map_cons, List.map_nil,
        List.mem_singleton]
      exact Or.inr heq.symm

/-- An entry with no equal key before it is kept. -/
theorem firstOccurrences_first :
    ∀ (pre earlier : List FileMetadata) (m : FileMetadata) (post : List FileMetadata),
      key m ∉ (earlier ++ pre).map key →
      m ∈ firstOccurrences key earlier (pre ++ m :: post)
  | [], earlier, m, post, h => by
    simp only [List.append_nil] at h
    rw [List.nil_append, firstOccurrences_cons_of_not_mem key _ _ _ h]
    exact List.mem_cons_self _ _
  | x :: pre, earlier, m, post, h => by
    have h1 : key m ∉ ((earlier ++ [x]) ++ pre).map key := by
      simpa using h
    have ih := firstOccurrences_first pre (earlier ++ [x]) m post h1
    by_cases hx : key x ∈ earlier.map key
    · rw [List.cons_append, firstOccurrences_cons_of_mem key _ _ _ hx]
      exact ih
    · rw [List.cons_append, firstOccurrences_cons_of_not_mem key _ _ _ hx]
      exact List.mem_cons_of_mem _ ih

end FirstOccurrences

/-! ## `Find` keeps first occurrences -/

theorem absKey_of_ok (w : World) (m : FileMetadata) (a : String)
    (h : w.abs m.Path = .ok a) : absKey w m = some a := by
  simp [absKey, h]

theorem addMatches_spec (w : World) :
    ∀ (ms : List FileMetadata) (seen : List String) (uniq earlier : List FileMetadata),
      SeenInv w seen earlier →
      (∀ m ∈ ms, ∃ a, w.abs m.Path = .ok a) →
      ∃ seen1, addMatches w (seen, uniq) ms =
          .ok (seen1, uniq ++ firstOccurrences (absKey w) earlier ms) ∧
        SeenInv w seen1 (earlier ++ ms)
  | [], seen, uniq, earlier, hinv, _ => by
    refine ⟨seen, ?_, ?_⟩
    · simp [addMatches, firstOccurrences]
    · simpa using hinv
  | x :: ms, seen, uniq, earlier, hinv, habs => by
    obtain ⟨a, ha⟩ := habs x (List.mem_cons_self _ _)
    have hk := absKey_of_ok w x a ha
    have habs1 : ∀ m ∈ ms, ∃ a, w.abs m.Path = .ok a :=
      fun m hm => habs m (List.mem_cons_of_mem _ hm)
    rw [addMatches, ha]
    simp only
    by_cases hs : a ∈ seen
    · have hmem : absKey w x ∈ earlier.map (absKey w) := by
        rw [hk]; exact (hinv a).mp hs
      have hinv1 : SeenInv w seen (earlier ++ [x]) := by
        intro k
        have h0 := hinv k
        simp only [List.map_append, List.map_cons, List.map_nil, List.mem_append,
          List.mem_cons, List.not_mem_nil, or_false, hk, Option.some.injEq]
        constructor
        · exact fun h => Or.inl (h0.mp h)
        · rintro (h | h)
          · exact h0.mpr h
          · subst h
            exact hs
      obtain ⟨seen1, h1, h2⟩ := addMatches_spec w ms seen uniq (earlier ++ [x]) hinv1 habs1
      refine ⟨seen1, ?_, ?_⟩
      · rw [if_pos hs, h1, firstOccurrences_cons_of_mem _ _ _ _ hmem]
      · simpa using h2
    · have hmem : absKey w x ∉ earlier.map (absKey w) := by
        rw [hk]; exact fun h => hs ((hinv a).mpr h)
      have hinv1 : SeenInv w (a :: seen) (earlier ++ [x]) := by
        intro k
        have h0 := hinv k
        simp only [List.map_append, List.map_cons, List.map_nil, List.mem_append,
          List.mem_cons, List.not_mem_nil, or_false, hk, Option.some.injEq]
        constructor
        · rintro (h | h)
          · exact Or.inr h
          · exact Or.inl (h0.mp h)
        · rintro (h | h)
          · exact Or.inr (h0.mpr h)
          · exact Or.inl h
      obtain ⟨seen1, h1, h2⟩ :=
        addMatches_spec w ms (a :: seen) (uniq ++ [x]) (earlier ++ [x]) hinv1 habs1
      refine ⟨seen1, ?_, ?_⟩
      · rw [if_neg hs, h1, firstOccurrences_cons_of_not_mem _ _ _ _ hmem]
        simp
      · simpa using h2

theorem findRoots_spec (w : World) (fsf : FileSystemFinder)
    (ms : String → List FileMetadata) :
    ∀ (roots : List String) (seen : List String) (uniq earlier : List FileMetadata),
      SeenInv w seen earlier →
      (∀ r ∈ roots, findOne w fsf r = .ok (ms r)) →
      (∀ r ∈ roots, ∀ m ∈ ms r, ∃ a, w.abs m.Path = .ok a) →
      findRoots w fsf (seen, uniq) roots =
        .ok (uniq ++ firstOccurrences (absKey w) earlier (allMatches ms roots))
  | [], seen, uniq, earlier, _, _, _ => by
    simp [findRoots, allMatches, firstOccurrences]
  | r :: roots, seen, uniq, earlier, hinv, hok, habs => by
    obtain ⟨seen1, h1, h2⟩ := addMatches_spec w (ms r) seen uniq earlier hinv
      (habs r (List.mem_cons_self _ _))
    rw [findRoots, hok r (List.mem_cons_self _ _)]
    simp only
    rw [h1]
    simp only
    rw [findRoots_spec w fsf ms roots seen1 _ (earlier ++ ms r) h2
      (fun r1 h => hok r1 (List.mem_cons_of_mem _ h))
      (fun r1 h => habs r1 (List.mem_cons_of_mem _ h))]
    rw [allMatches, firstOccurrences_append, List.append_assoc]

theorem Find_spec (w : World) (fsf : FileSystemFinder) (ms : String → List FileMetadata)
    (hok : ∀ r ∈ fsf.PathRoots, findOne w fsf r = .ok (ms r))
    (habs : ∀ r ∈ fsf.PathRoots, ∀ m ∈ ms r, ∃ a, w.abs m.Path = .ok a) :
    Find w fsf = .ok (firstOccurrences (absKey w) [] (allMatches ms fsf.PathRoots)) := by
  have := findRoots_spec w fsf ms fsf.PathRoots [] [] [] (by intro k; simp) hok habs
  simpa [Find] using this

/-! ## Failing roots -/

theorem addMatches_error (w : World) :
    ∀ (ms : List FileMetadata) (st : List String × List FileMetadata) (e : FsError),
      addMatches w st ms = .error e → ∃ m ∈ ms, w.abs m.Path = .error e
  | [], st, e, h => by simp [addMatches] at h
  | x :: ms, (seen, uniq), e, h => by
    rw [addMatches] at h
    cases ha : w.abs x.Path with
    | error e1 =>
      rw [ha] at h
      simp only at h
      injection h with h
      subst h
      exact ⟨x, List.mem_cons_self _ _, ha⟩
    | ok a =>
      rw [ha] at h
      simp only at h
      split at h
      · obtain ⟨m, hm, h1⟩ := addMatches_error w ms _ e h
        exact ⟨m, List.mem_cons_of_mem _ hm, h1⟩
      · obtain ⟨m, hm, h1⟩ := addMatches_error w ms _ e h
        exact ⟨m, List.mem_cons_of_mem _ hm, h1⟩

/-- A failing root after roots that do not fail makes the outer loop fail: with the
error of that root, or before with the error of `filepath.Abs` on an earlier match. -/
theorem findRoots_fail (w : World) (fsf : FileSystemFinder)
    (ms : String → List FileMetadata) (r : String) (post : List String) (e : FsError)
    (hr : findOne w fsf r = .error e) :
    ∀ (pre : List String) (st : List String × List FileMetadata),
      (∀ p ∈ pre, findOne w fsf p = .ok (ms p)) →
      findRoots w fsf st (pre ++ r :: post) = .error e ∨
        ∃ p ∈ pre, ∃ m ∈ ms p, ∃ e1, w.abs m.Path = .error e1 ∧
          findRoots w fsf st (pre ++ r :: post) = .error e1
  | [], st, _ => by
    left
    rw [List.nil_append, findRoots, hr]
  | p :: pre, st, hok => by
    rw [List.cons_append, findRoots, hok p (List.mem_cons_self _ _)]
    simp only
    cases h2 : addMatches w st (ms p) with
    | error e1 =>
      right
      obtain ⟨m, hm, h3⟩ := addMatches_error w (ms p) st e1 h2
      exact ⟨p, List.mem_cons_self _ _, m, hm, e1, h3, rfl⟩
    | ok st1 =>
      simp only
      rcases findRoots_fail w fsf ms r post e hr pre st1
        (fun q h => hok q (List.mem_cons_of_mem _ h)) with h3 | ⟨q, hq, m, hm, e1, h4, h5⟩
      · exact Or.inl h3
      · exact Or.inr ⟨q, List.mem_cons_of_mem _ hq, m, hm, e1, h4, h5⟩

/-! ## The claims -/

theorem absKey_eq_iff (w : World) (a b : FileMetadata)
    (ha : ∃ x, w.abs a.Path = .ok x) (hb : ∃ x, w.abs b.Path = .ok x) :
    absKey w a = absKey w b ↔ w.abs a.Path = w.abs b.Path := by
  obtain ⟨x, hx⟩ := ha
  obtain ⟨y, hy⟩ := hb
  simp [absKey, hx, hy]

theorem mem_allMatches (ms : String → List FileMetadata) :
    ∀ (roots : List String) (m : FileMetadata),
      m ∈ allMatches ms roots ↔ ∃ r ∈ roots, m ∈ ms r
  | [], m => by simp [allMatches]
  | r :: roots, m => by
    rw [allMatches, List.mem_append, mem_allMatches ms roots m]
    simp

/-- Counterexample to C1 as stated: the only root traverses without error, and `Find`
returns no sequence but the error of `filepath.Abs`, the working directory being
unavailable. -/
theorem Find_fails_when_abs_fails :
    (∀ r ∈ finderGoneOne.PathRoots, findOne worldGone finderGoneOne r =
        .ok [⟨"good.json", "../good.json", jsonType⟩]) ∧
      Find worldGone finderGoneOne = .error ⟨"getwd", "", ENOENT⟩ := by
  decide

/-- C1, amended: when every root traverses without error and `filepath.Abs` resolves
the path of every match, `Find` returns the matches of the roots, concatenated in
root order, from which every entry whose absolute path equals that of an earlier
entry is removed: the result is a subsequence of the concatenation, no two returned
entries share an absolute path, an entry with no earlier entry of the same absolute
path is kept, and every absolute path of a match is represented. In particular the
roots `(p, Abs p)` naming one file give one entry, and a file root whose match has
the absolute path of a match of the directory root before it adds nothing. -/
theorem Find_keeps_first_occurrences (w : World) (fsf : FileSystemFinder)
    (ms : String → List FileMetadata)
    (hok : ∀ r ∈ fsf.PathRoots, findOne w fsf r = .ok (ms r))
    (habs : ∀ r ∈ fsf.PathRoots, ∀ m ∈ ms r, ∃ a, w.abs m.Path = .ok a) :
    Find w fsf = .ok (firstOccurrences (absKey w) [] (allMatches ms fsf.PathRoots)) ∧
    (firstOccurrences (absKey w) [] (allMatches ms fsf.PathRoots)).Sublist
      (allMatches ms fsf.PathRoots) ∧
    (firstOccurrences (absKey w) [] (allMatches ms fsf.PathRoots)).Pairwise
      (fun a b => w.abs a.Path ≠ w.abs b.Path) ∧
    (∀ pre m post, allMatches ms fsf.PathRoots = pre ++ m :: post →
      (∀ e ∈ pre, w.abs e.Path ≠ w.abs m.Path) →
      m ∈ firstOccurrences (absKey w) [] (allMatches ms fsf.PathRoots)) ∧
    (∀ m ∈ allMatches ms fsf.PathRoots,
      ∃ k ∈ firstOccurrences (absKey w) [] (allMatches ms fsf.PathRoots),
        w.abs k.Path = w.abs m.Path) ∧
    (∀ p a m1 m2, fsf.PathRoots = [p, a] → w.abs p = .ok a → IsAbs a = true →
      ms p = [m1] → m1.Path = p → ms a = [m2] → m2.Path = a →
      Find w fsf = .ok [m1]) ∧
    (∀ d f m, fsf.PathRoots = [d, f] → ms f = [m] →
      (∃ m1 ∈ ms d, w.abs m1.Path = w.abs m.Path) →
      Find w fsf = .ok (firstOccurrences (absKey w) [] (ms d))) := by
  have hall : ∀ m ∈ allMatches ms fsf.PathRoots, ∃ a, w.abs m.Path = .ok a := by
    intro m hm
    obtain ⟨r, hr, hmr⟩ := (mem_allMatches ms _ m).mp hm
    exact habs r hr m hmr
  have hsub := firstOccurrences_sublist (absKey w) (allMatches ms fsf.PathRoots) []
  have hfind := Find_spec w fsf ms hok habs
  refine ⟨hfind, hsub, ?_, ?_, ?_, ?_, ?_⟩
  · refine (firstOccurrences_pairwise (absKey w) _ []).imp_of_mem ?_
    intro a b ha hb hne heq
    exact hne ((absKey_eq_iff w a b (hall a (hsub.subset ha)) (hall b (hsub.subset hb))).mpr heq)
  · intro pre m post hdec hpre
    rw [hdec]
    apply firstOccurrences_first
    simp only [List.nil_append, List.mem_map, not_exists, not_and]
    intro e he heq
    have hm : m ∈ allMatches ms fsf.PathRoots := by rw [hdec]; simp
    have hem : e ∈ allMatches ms fsf.PathRoots := by
      rw [hdec]; exact List.mem_append_left _ he
    exact hpre e he ((absKey_eq_iff w e m (hall e hem) (hall m hm)).mp heq)
  · intro m hm
    obtain ⟨pre, post, hdec⟩ := List.append_of_mem hm
    -- the first entry of the concatenation with the absolute path of `m`
    have : ∀ (n : Nat) (pre : List FileMetadata) (m1 : FileMetadata)
        (post : List FileMetadata), pre.length = n →
        allMatches ms fsf.PathRoots = pre ++ m1 :: post →
        w.abs m1.Path = w.abs m.Path →
        ∃ k ∈ firstOccurrences (absKey w) [] (allMatches ms fsf.PathRoots),
          w.abs k.Path = w.abs m.Path := by
      intro n
      induction n using Nat.strong_induction_on with
      | _ n ih =>
        intro pre m1 post hlen hd heq
        by_cases hex : ∃ e ∈ pre, w.abs e.Path = w.abs m1.Path
        · obtain ⟨e, he, hee⟩ := hex
          obtain ⟨p1, p2, hp⟩ := List.append_of_mem he
          have hlt : p1.length < n := by
            rw [← hlen, hp]; simp
          refine ih p1.length hlt p1 e (p2 ++ m1 :: post) rfl ?_ (hee.trans heq)
          rw [hd, hp]; simp
        · have hm1 : m1 ∈ firstOccurrences (absKey w) [] (allMatches ms fsf.PathRoots) := by
            rw [hd]
            apply firstOccurrences_first
            simp only [List.nil_append, List.mem_map, not_exists, not_and]
            intro e he hk
            have hm1m : m1 ∈ allMatches ms fsf.PathRoots := by rw [hd]; simp
            have hem : e ∈ allMatches ms fsf.PathRoots := by
              rw [hd]; exact List.mem_append_left _ he
            exact hex ⟨e, he, (absKey_eq_iff w e m1 (hall e hem) (hall m1 hm1m)).mp hk⟩
          exact ⟨m1, hm1, heq⟩
    exact this pre.length pre m post rfl hdec rfl
  · intro p a m1 m2 hroots hpa hisabs h1 hp1 h2 hp2
    rw [hfind, hroots]
    have hk1 : absKey w m1 = some a := absKey_of_ok w m1 a (by rw [hp1]; exact hpa)
    have hk2 : absKey w m2 = some a :=
      absKey_of_ok w m2 a (by rw [hp2]; exact World.abs_fixed w p a hpa hisabs)
    simp [allMatches, h1, h2, firstOccurrences, hk1, hk2]
  · intro d f m hroots hf hex
    rw [hfind, hroots]
    have hmem : absKey w m ∈ (ms d).map (absKey w) := by
      obtain ⟨m1, hm1, heq⟩ := hex
      have hd : d ∈ fsf.PathRoots := by rw [hroots]; simp
      have hfr : f ∈ fsf.PathRoots := by rw [hroots]; simp
      refine List.mem_map.mpr ⟨m1, hm1, ?_⟩
      exact (absKey_eq_iff w m1 m (habs d hd m1 hm1) (habs f hfr m (by rw [hf]; simp))).mpr heq
    simp only [allMatches, hf, List.append_nil]
    rw [firstOccurrences_append, List.nil_append,
      firstOccurrences_cons_of_mem _ _ _ _ hmem]
    simp [firstOccurrences]

theorem findOne_worldAbs :
    ∀ r ∈ finderAbs.PathRoots, findOne worldAbs finderAbs r = .ok (matchesAbs r) := by
  decide

theorem abs_worldAbs :
    ∀ r ∈ finderAbs.PathRoots, ∀ m ∈ matchesAbs r, ∃ a, worldAbs.abs m.Path = .ok a := by
  intro r hr m hm
  have hr1 : r = "sub/good.json" ∨ r = "/wd/sub/good.json" := by
    simpa [finderAbs, FileSystemFinderInit, WithPathRoots] using hr
  rcases hr1 with rfl | rfl
  · have : m = ⟨"good.json", "sub/good.json", jsonType⟩ := by
      simpa [matchesAbs] using hm
    subst this
    exact ⟨"/wd/sub/good.json", by decide⟩
  · have : m = ⟨"good.json", "/wd/sub/good.json", jsonType⟩ := by
      simpa [matchesAbs] using hm
    subst this
    exact ⟨"/wd/sub/good.json", by decide⟩

/-- Witness of C1: the relative and the absolute spelling of one file give one entry. -/
theorem Find_keeps_first_occurrences_witness :
    Find worldAbs finderAbs = .ok [⟨"good.json", "sub/good.json", jsonType⟩] :=
  (Find_keeps_first_occurrences worldAbs finderAbs matchesAbs findOne_worldAbs
    abs_worldAbs).2.2.2.2.2.1 "sub/good.json" "/wd/sub/good.json"
    ⟨"good.json", "sub/good.json", jsonType⟩ ⟨"good.json", "/wd/sub/good.json", jsonType⟩
    (by decide) (by decide) (by decide) (by decide) rfl (by decide) rfl

/-! ### C2 -/

theorem matchFileType_some :
    ∀ (fts : List FileType) (x : String) (ft : FileType),
      matchFileType fts x = some ft →
      ∃ pre post, fts = pre ++ ft :: post ∧ x ∈ ft.Extensions ∧
        ∀ t ∈ pre, x ∉ t.Extensions
  | [], x, ft, h => by simp [matchFileType] at h
  | t :: fts, x, ft, h => by
    by_cases ht : x ∈ t.Extensions
    · have : matchFileType (t :: fts) x = some t := by
        simp [matchFileType, List.find?, ht]
      rw [this] at h
      injection h with h
      subst h
      exact ⟨[], fts, rfl, ht, by simp⟩
    · have : matchFileType (t :: fts) x = matchFileType fts x := by
        simp [matchFileType, List.find?, ht]
      rw [this] at h
      obtain ⟨pre, post, h1, h2, h3⟩ := matchFileType_some fts x ft h
      refine ⟨t :: pre, post, by rw [h1]; rfl, h2, ?_⟩
      intro t1 ht1
      rcases List.mem_cons.mp ht1 with rfl | ht1
      · exact ht
      · exact h3 t1 ht1

theorem matchFileType_none (fts : List FileType) (x : String) :
    matchFileType fts x = none ↔ ∀ t ∈ fts, x ∉ t.Extensions := by
  simp [matchFileType]

theorem matchFile_of_not_excluded (fsf : FileSystemFinder) (name path : String)
    (hex : walkFileExtension fsf name path ∉ fsf.ExcludeFileTypes) :
    matchFile fsf name path =
      match matchFileType fsf.FileTypes (ToLower (walkFileExtension fsf name path)) with
      | some fileType => [⟨name, path, fileType⟩]
      | none => [] := by
  unfold matchFile
  simp only [hex, if_false]

/-- C2: a visited file whose extension (parsed, or overridden through
`AdditionalFiles`) is not in `ExcludeFileTypes` is emitted if and only if some
`FileType` of the registry holds the lower-cased extension; it is then emitted
exactly once, with its base name, the walk path and the first such `FileType` in
registry order. Consequently two files whose extensions differ in letter case only
get the same `FileType`, as `JSON` and `Json` do with `json`. -/
theorem visited_file_emitted_iff_registered (fsf : FileSystemFinder) (maxDepth : Int)
    (name path : String)
    (hex : walkFileExtension fsf name path ∉ fsf.ExcludeFileTypes) :
    ((∃ ms, walkDir fsf maxDepth path (.file name) = .next ms ∧ ms ≠ []) ↔
      ∃ ft ∈ fsf.FileTypes, ToLower (walkFileExtension fsf name path) ∈ ft.Extensions) ∧
    ((∃ ft ∈ fsf.FileTypes, ToLower (walkFileExtension fsf name path) ∈ ft.Extensions) →
      ∃ pre ft post, fsf.FileTypes = pre ++ ft :: post ∧
        ToLower (walkFileExtension fsf name path) ∈ ft.Extensions ∧
        (∀ t ∈ pre, ToLower (walkFileExtension fsf name path) ∉ t.Extensions) ∧
        walkDir fsf maxDepth path (.file name) = .next [⟨name, path, ft⟩]) ∧
    ((∀ ft ∈ fsf.FileTypes, ToLower (walkFileExtension fsf name path) ∉ ft.Extensions) →
      walkDir fsf maxDepth path (.file name) = .next []) ∧
    (∀ name2 path2, walkFileExtension fsf name2 path2 ∉ fsf.ExcludeFileTypes →
      ToLower (walkFileExtension fsf name2 path2) =
        ToLower (walkFileExtension fsf name path) →
      (matchFile fsf name2 path2).map (fun m => m.FileType) =
        (matchFile fsf name path).map (fun m => m.FileType)) ∧
    ToLower "JSON" = "json" ∧ ToLower "Json" = "json" := by
  have hmf := matchFile_of_not_excluded fsf name path hex
  have hsome : (∃ ft ∈ fsf.FileTypes,
      ToLower (walkFileExtension fsf name path) ∈ ft.Extensions) →
      ∃ pre ft post, fsf.FileTypes = pre ++ ft :: post ∧
        ToLower (walkFileExtension fsf name path) ∈ ft.Extensions ∧
        (∀ t ∈ pre, ToLower (walkFileExtension fsf name path) ∉ t.Extensions) ∧
        walkDir fsf maxDepth path (.file name) = .next [⟨name, path, ft⟩] := by
    rintro ⟨ft, hft, hmem⟩
    cases hm : matchFileType fsf.FileTypes (ToLower (walkFileExtension fsf name path)) with
    | none => exact absurd hmem ((matchFileType_none _ _).mp hm ft hft)
    | some ft1 =>
      obtain ⟨pre, post, h1, h2, h3⟩ := matchFileType_some _ _ _ hm
      refine ⟨pre, ft1, post, h1, h2, h3, ?_⟩
      rw [walkDir_file, hmf, hm]
  have hnone : (∀ ft ∈ fsf.FileTypes,
      ToLower (walkFileExtension fsf name path) ∉ ft.Extensions) →
      walkDir fsf maxDepth path (.file name) = .next [] := by
    intro h
    rw [walkDir_file, hmf, (matchFileType_none _ _).mpr h]
  refine ⟨⟨?_, ?_⟩, hsome, hnone, ?_, by decide, by decide⟩
  · rintro ⟨ms, hw, hne⟩
    by_contra hno
    have hall : ∀ ft ∈ fsf.FileTypes,
        ToLower (walkFileExtension fsf name path) ∉ ft.Extensions :=
      fun ft hft hmem => hno ⟨ft, hft, hmem⟩
    rw [hnone hall] at hw
    injection hw with hw
    exact hne hw.symm
  · intro h
    obtain ⟨pre, ft, post, _, _, _, hw⟩ := hsome h
    exact ⟨_, hw, by simp⟩
  · intro name2 path2 hex2 hlow
    rw [matchFile_of_not_excluded fsf name2 path2 hex2, hmf, hlow]
    cases matchFileType fsf.FileTypes (ToLower (walkFileExtension fsf name path)) <;> rfl

/-- Witness of C2: `config.JSON` under the built-in style registry. -/
theorem visited_file_emitted_iff_registered_witness :
    walkFileExtension finderAbs "config.JSON" "dir/config.JSON" ∉
        finderAbs.ExcludeFileTypes ∧
      ∃ ms, walkDir finderAbs 0 "dir/config.JSON" (.file "config.JSON") = .next ms ∧
        ms ≠ [] :=
  ⟨by decide,
    (visited_file_emitted_iff_registered finderAbs 0 "config.JSON" "dir/config.JSON"
      (by decide)).1.mpr ⟨jsonType, by decide, by decide⟩⟩

/-! ### C3 -/

/-- Counterexample to C3 as stated: the second root is the first failing root, yet
`Find` returns the error of `filepath.Abs` on the match of the first root. -/
theorem Find_error_not_of_first_failing_root :
    findOne worldGone finderGone "../good.json" =
        .ok [⟨"good.json", "../good.json", jsonType⟩] ∧
      findOne worldGone finderGone "/bad/path" = .error ⟨"stat", "/bad/path", ENOENT⟩ ∧
      Find worldGone finderGone = .error ⟨"getwd", "", ENOENT⟩ ∧
      Find worldGone finderGone ≠ .error ⟨"stat", "/bad/path", ENOENT⟩ := by
  decide

/-- C3, amended: when the roots before `r` all traverse without error and `findOne`
fails for `r`, `Find` returns no result but an error: the error of `r`, unless
`filepath.Abs` fails before on a match of an earlier root, in which case that error
is returned; when `filepath.Abs` resolves every match of the earlier roots the error
is the one of `r`, whatever those matches are. -/
theorem Find_fail_fast (w : World) (fsf : FileSystemFinder)
    (ms : String → List FileMetadata) (pre : List String) (r : String)
    (post : List String) (e : FsError)
    (hroots : fsf.PathRoots = pre ++ r :: post)
    (hpre : ∀ p ∈ pre, findOne w fsf p = .ok (ms p))
    (hr : findOne w fsf r = .error e) :
    (Find w fsf = .error e ∨
      ∃ p ∈ pre, ∃ m ∈ ms p, ∃ e1, w.abs m.Path = .error e1 ∧ Find w fsf = .error e1) ∧
    ((∀ p ∈ pre, ∀ m ∈ ms p, ∃ a, w.abs m.Path = .ok a) → Find w fsf = .error e) ∧
    (∀ res, Find w fsf ≠ .ok res) := by
  have h0 := findRoots_fail w fsf ms r post e hr pre ([], []) hpre
  rw [← hroots] at h0
  have h : Find w fsf = .error e ∨
      ∃ p ∈ pre, ∃ m ∈ ms p, ∃ e1, w.abs m.Path = .error e1 ∧ Find w fsf = .error e1 := h0
  refine ⟨h, ?_, ?_⟩
  · intro habs
    rcases h with h | ⟨p, hp, m, hm, e1, h1, _⟩
    · exact h
    · obtain ⟨a, ha⟩ := habs p hp m hm
      rw [ha] at h1
      cases h1
  · intro res hres
    rcases h with h | ⟨p, hp, m, hm, e1, _, h2⟩
    · rw [h] at hres; cases hres
    · rw [h2] at hres; cases hres

/-- Witness of C3: the roots of `Test_FileFinderBadPath`. -/
theorem Find_fail_fast_witness :
    (finderBad.PathRoots = ["../../test/fixtures/subdir"] ++ "/bad/path" :: [] ∧
      findOne worldBad finderBad "/bad/path" = .error ⟨"stat", "/bad/path", ENOENT⟩) ∧
    Find worldBad finderBad = .error ⟨"stat", "/bad/path", ENOENT⟩ :=
  ⟨⟨by decide, by decide⟩,
    (Find_fail_fast worldBad finderBad matchesBad ["../../test/fixtures/subdir"]
      "/bad/path" [] ⟨"stat", "/bad/path", ENOENT⟩ (by decide) (by decide) (by decide)).2.1
      (fun _ _ m hm => ⟨"/repo/test/fixtures/subdir/good.json", by
        rw [List.mem_singleton.mp hm]; decide⟩)⟩

/-! ### C4 -/

theorem findRoots_error_of_mem (w : World) (fsf : FileSystemFinder) (r : String)
    (e : FsError) (hr : findOne w fsf r = .error e) :
    ∀ (roots : List String) (st : List String × List FileMetadata),
      r ∈ roots → ∃ e1, findRoots w fsf st roots = .error e1
  | [], _, h => by cases h
  | p :: roots, st, h => by
    rw [findRoots]
    cases h1 : findOne w fsf p with
    | error e1 => exact ⟨e1, rfl⟩
    | ok ms =>
      simp only
      cases h2 : addMatches w st ms with
      | error e1 => exact ⟨e1, rfl⟩
      | ok st1 =>
        simp only
        rcases List.mem_cons.mp h with rfl | h
        · rw [hr] at h1; cases h1
        · exact findRoots_error_of_mem w fsf r e hr roots st1 h

/-- C4: for a root that does not exist (`os.Stat` answers a not-found error),
`findOne` returns no result and that error, whatever the walk would find, and `Find`
on a finder that has this root returns an error and no result. -/
theorem findOne_root_not_exist (w : World) (fsf : FileSystemFinder) (root : String)
    (e : FsError) (hstat : w.stat root = some e) (hne : e.isNotExist = true) :
    findOne w fsf root = .error e ∧
    (∀ lstat1 getwd1, findOne ⟨w.stat, lstat1, getwd1⟩ fsf root = .error e) ∧
    (root ∈ fsf.PathRoots →
      (∃ e1, Find w fsf = .error e1) ∧ ∀ res, Find w fsf ≠ .ok res) := by
  have h1 : ∀ lstat1 getwd1, findOne ⟨w.stat, lstat1, getwd1⟩ fsf root = .error e := by
    intro l g
    unfold findOne
    simp only [hstat, hne, if_true]
  refine ⟨?_, h1, ?_⟩
  · have := h1 w.lstat w.getwd
    exact this
  · intro hmem
    obtain ⟨e1, he1⟩ :=
      findRoots_error_of_mem w fsf root e (h1 w.lstat w.getwd) fsf.PathRoots ([], []) hmem
    refine ⟨⟨e1, he1⟩, ?_⟩
    intro res hres
    have : Find w fsf = .error e1 := he1
    rw [this] at hres
    cases hres

/-- Witness of C4: the root `/bad/path`. -/
theorem findOne_root_not_exist_witness :
    (worldBad.stat "/bad/path" = some ⟨"stat", "/bad/path", ENOENT⟩ ∧
      FsError.isNotExist ⟨"stat", "/bad/path", ENOENT⟩ = true) ∧
    findOne worldBad finderBad "/bad/path" = .error ⟨"stat", "/bad/path", ENOENT⟩ :=
  ⟨⟨by decide, by decide⟩,
    (findOne_root_not_exist worldBad finderBad "/bad/path" ⟨"stat", "/bad/path", ENOENT⟩
      (by decide) (by decide)).1⟩

/-! ### C5 -/

mutual
theorem walkDir_prune (fsf : FileSystemFinder) (md : Int) :
    ∀ (n : Node) (path : String),
      walkDir fsf md path (prune fsf.ExcludeDirs n) = walkDir fsf md path n
  | .file name, path => by rw [prune]
  | .dir name re ch, path => by
    rw [prune]
    by_cases hex : name ∈ fsf.ExcludeDirs
    · rw [if_pos hex, walkDir_dir, walkDir_dir]
      have : skipCond fsf md name path true = true := by simp [skipCond, hex]
      simp [this]
    · rw [if_neg hex, walkDir_dir, walkDir_dir, walkEntries_prune fsf md ch path]
theorem walkEntries_prune (fsf : FileSystemFinder) (md : Int) :
    ∀ (ds : List Node) (path : String),
      walkEntries fsf md path (pruneEntries fsf.ExcludeDirs ds) = walkEntries fsf md path ds
  | [], path => by rw [pruneEntries]
  | d :: ds, path => by
    have hname : (prune fsf.ExcludeDirs d).name = d.name := by
      cases d with
      | file name => rw [prune]
      | dir name re ch =>
        rw [prune]
        split <;> rfl
    rw [pruneEntries, walkEntries_cons, walkEntries_cons, hname,
      walkDir_prune fsf md d (Join path d.name), walkEntries_prune fsf md ds path]
end

theorem findOne_pruned (w : World) (fsf : FileSystemFinder) (root : String) :
    findOne (w.pruned fsf.ExcludeDirs) fsf root = findOne w fsf root := by
  have hW : ∀ md, WalkDir (w.pruned fsf.ExcludeDirs) fsf md root = WalkDir w fsf md root := by
    intro md
    rw [WalkDir_eq, WalkDir_eq]
    show (match (match w.lstat root with
        | .ok n => Except.ok (prune fsf.ExcludeDirs n)
        | .error e => Except.error e) with
      | .error e => WalkAction.fail e
      | .ok info => walkDir fsf md root info) = _
    cases w.lstat root with
    | error e => rfl
    | ok n => exact walkDir_prune fsf md n root
  rw [findOne_eq, findOne_eq, hW]
  rfl

theorem addMatches_congr (w w1 : World) (h : w1.getwd = w.getwd) :
    ∀ (ms : List FileMetadata) (st : List String × List FileMetadata),
      addMatches w1 st ms = addMatches w st ms
  | [], st => by rw [addMatches, addMatches]
  | m :: ms, (seen, uniq) => by
    have habs : w1.abs m.Path = w.abs m.Path := by
      unfold World.abs
      rw [h]
    rw [addMatches, addMatches, habs]
    cases w.abs m.Path with
    | error e => rfl
    | ok a =>
      simp only
      rw [addMatches_congr w w1 h ms, addMatches_congr w w1 h ms]

theorem findRoots_congr (w w1 : World) (fsf : FileSystemFinder)
    (h : w1.getwd = w.getwd) (hf : ∀ r, findOne w1 fsf r = findOne w fsf r) :
    ∀ (roots : List String) (st : List String × List FileMetadata),
      findRoots w1 fsf st roots = findRoots w fsf st roots
  | [], st => by rw [findRoots, findRoots]
  | r :: roots, st => by
    rw [findRoots, findRoots, hf r]
    cases findOne w fsf r with
    | error e => rfl
    | ok ms =>
      simp only
      rw [addMatches_congr w w1 h]
      cases addMatches w st ms with
      | error e => rfl
      | ok st1 =>
        simp only
        exact findRoots_congr w w1 fsf h hf roots st1

/-- C5: every entry returned by `Find` is the entry of a file of the tree of one of
the roots none of whose enclosing directories, from the root directory down to the
one holding the file, has its base name in `ExcludeDirs`; and whatever lies under a
directory with such a name, at any depth, has no effect on what `Find` returns. -/
theorem Find_skips_excluded_dirs (w : World) (fsf : FileSystemFinder)
    (res : List FileMetadata) (h : Find w fsf = .ok res) :
    (∀ m ∈ res, ∃ root ∈ fsf.PathRoots, ∃ tree, w.lstat root = .ok tree ∧
      ∃ dirs, FileAt root tree dirs m.Name m.Path ∧ ∀ d ∈ dirs, d ∉ fsf.ExcludeDirs) ∧
    Find (w.pruned fsf.ExcludeDirs) fsf = .ok res := by
  constructor
  · intro m hm
    obtain ⟨r, hr, ms, hf, hmem⟩ := Find_sub w fsf res h m hm
    obtain ⟨tree, hl, hw⟩ := findOne_ok_walk w fsf r ms hf
    obtain ⟨dirs, hat, hex, _⟩ := walkDir_located fsf _ tree r ms hw m hmem
    exact ⟨r, hr, tree, hl, dirs, hat, hex⟩
  · rw [← h]
    exact findRoots_congr w (w.pruned fsf.ExcludeDirs) fsf rfl
      (findOne_pruned w fsf) fsf.PathRoots ([], [])

/-- Witness of C5: with `subdir` excluded the two files under a `subdir` are left
out. -/
theorem Find_skips_excluded_dirs_witness :
    Find worldFixtures finderExcludeDirs =
        .ok [⟨"good.json", "fixtures/good.json", jsonType⟩,
          ⟨"k.yaml", "fixtures/keep/k.yaml", yamlType⟩] ∧
      Find (worldFixtures.pruned finderExcludeDirs.ExcludeDirs) finderExcludeDirs =
        .ok [⟨"good.json", "fixtures/good.json", jsonType⟩,
          ⟨"k.yaml", "fixtures/keep/k.yaml", yamlType⟩] :=
  ⟨by decide, (Find_skips_excluded_dirs worldFixtures finderExcludeDirs _ (by decide)).2⟩

/-! ### C6 -/

/-- Counterexample to C6 as stated: `Makefile` has the empty raw extension, the empty
extension is in `ExcludeFileTypes`, and the file is returned, through its
`AdditionalFiles` override. -/
theorem Find_returns_excluded_raw_extension :
    Find worldMake finderMake = .ok [⟨"Makefile", "proj/Makefile", makeType⟩] ∧
      trimDot (Ext "proj/Makefile") = "" ∧
      trimDot (Ext "proj/Makefile") ∈ finderMake.ExcludeFileTypes := by
  decide

theorem walkFileExtension_of_ext (fsf : FileSystemFinder) (name path : String)
    (h : trimDot (Ext path) ≠ "") :
    walkFileExtension fsf name path = trimDot (Ext path) := by
  unfold walkFileExtension
  simp only
  split
  · rename_i h0
    exfalso
    apply h
    have : (trimDot (Ext path)).data = [] := List.length_eq_zero.mp h0
    exact String.ext this
  · rfl

theorem walkFileExtension_of_no_override (fsf : FileSystemFinder) (name path : String)
    (h : fsf.AdditionalFiles.lookup name = none) :
    walkFileExtension fsf name path = trimDot (Ext path) := by
  unfold walkFileExtension
  simp only
  split
  · rename_i h0
    rw [h]
    have : (trimDot (Ext path)).data = [] := List.length_eq_zero.mp h0
    exact (String.ext this).symm
  · rfl

/-- C6, amended: no entry returned by `Find` is a file whose extension as the walk
uses it (the text after the last dot of its name or, when the name has no extension,
the `AdditionalFiles` override of its base name) is in `ExcludeFileTypes`, even when
a registered `FileType` holds it; so a file whose raw extension is not empty, or
whose name has no override, is never returned when its raw extension is excluded.
A directory with one `.json` and one `.yaml` file and `json` excluded gives the YAML
file alone. -/
theorem Find_skips_excluded_file_types (w : World) (fsf : FileSystemFinder)
    (res : List FileMetadata) (h : Find w fsf = .ok res) :
    (∀ m ∈ res,
      walkFileExtension fsf m.Name m.Path ∉ fsf.ExcludeFileTypes ∧
      (trimDot (Ext m.Path) ≠ "" → trimDot (Ext m.Path) ∉ fsf.ExcludeFileTypes) ∧
      (fsf.AdditionalFiles.lookup m.Name = none →
        trimDot (Ext m.Path) ∉ fsf.ExcludeFileTypes)) ∧
    Find worldTypes finderTypes =
      .ok [⟨"not-excluded.yaml", "exclude-file-types/not-excluded.yaml", yamlType⟩] := by
  refine ⟨?_, by decide⟩
  intro m hm
  obtain ⟨r, hr, ms, hf, hmem⟩ := Find_sub w fsf res h m hm
  obtain ⟨tree, hl, hw⟩ := findOne_ok_walk w fsf r ms hf
  obtain ⟨dirs, _, _, hmf⟩ := walkDir_located fsf _ tree r ms hw m hmem
  obtain ⟨_, _, hex, _⟩ := matchFile_mem fsf m.Name m.Path m hmf
  refine ⟨hex, ?_, ?_⟩
  · intro hne
    rw [← walkFileExtension_of_ext fsf m.Name m.Path hne]
    exact hex
  · intro hno
    rw [← walkFileExtension_of_no_override fsf m.Name m.Path hno]
    exact hex

/-- Witness of C6: the returned YAML file has an extension that is not excluded. -/
theorem Find_skips_excluded_file_types_witness :
    Find worldTypes finderTypes =
        .ok [⟨"not-excluded.yaml", "exclude-file-types/not-excluded.yaml", yamlType⟩] ∧
      walkFileExtension finderTypes "not-excluded.yaml"
        "exclude-file-types/not-excluded.yaml" ∉ finderTypes.ExcludeFileTypes :=
  ⟨by decide,
    ((Find_skips_excluded_file_types worldTypes finderTypes
      [⟨"not-excluded.yaml", "exclude-file-types/not-excluded.yaml", yamlType⟩]
      (by decide)).1
      ⟨"not-excluded.yaml", "exclude-file-types/not-excluded.yaml", yamlType⟩
      (by decide)).1⟩

/-! ### C7 -/

/-- C7, the code at a failing input: with `Depth` set to 0, the root `../` of the
test `recursion disabled` and the default root `.` both return a file that lies in a
subdirectory of the root. -/
theorem findOne_depth_zero_descends :
    findOne worldDepth finderDepthZero "../" =
        .ok [⟨"config.json", "../finder/config.json", jsonType⟩] ∧
      findOne worldDepth finderDepthZeroDot "." =
        .ok [⟨"f.json", "sub/f.json", jsonType⟩] ∧
      finderDepthZero.Depth = some 0 ∧ finderDepthZeroDot.Depth = some 0 := by
  decide

/-! ### C10 -/

/-- Counterexample to C10 as stated: `json` is excluded, the file `a.JSON` has the
extension `JSON`, equal to `json` up to letter case, and the file is returned. -/
theorem Find_exclusion_is_case_sensitive :
    Find worldCase finderCase = .ok [⟨"a.JSON", "conf/a.JSON", jsonType⟩] ∧
      "json" ∈ finderCase.ExcludeFileTypes ∧
      ToLower (walkFileExtension finderCase "a.JSON" "conf/a.JSON") = "json" := by
  decide

/-- C10, amended: the rejection set is compared against the walk extension exactly
as parsed, letter case included: for every `e` in `ExcludeFileTypes`, a visited file
whose extension (parsed or overridden) is `e` itself is rejected and no entry
returned by `Find` has it; a file whose extension is not literally in the set is not
rejected, and is emitted when a registered `FileType` holds its lower-cased
extension. -/
theorem excluded_extension_rejected (w : World) (fsf : FileSystemFinder) (maxDepth : Int)
    (e : String) (he : e ∈ fsf.ExcludeFileTypes) :
    (∀ name path, walkFileExtension fsf name path = e →
      walkDir fsf maxDepth path (.file name) = .next []) ∧
    (∀ res, Find w fsf = .ok res → ∀ m ∈ res, walkFileExtension fsf m.Name m.Path ≠ e) ∧
    (∀ name path, walkFileExtension fsf name path ∉ fsf.ExcludeFileTypes →
      (∃ ft ∈ fsf.FileTypes, ToLower (walkFileExtension fsf name path) ∈ ft.Extensions) →
      ∃ ft, walkDir fsf maxDepth path (.file name) = .next [⟨name, path, ft⟩]) := by
  refine ⟨?_, ?_, ?_⟩
  · intro name path hext
    rw [walkDir_file]
    unfold matchFile
    simp only [hext, he, if_true]
  · intro res h m hm heq
    obtain ⟨r, hr, ms, hf, hmem⟩ := Find_sub w fsf res h m hm
    obtain ⟨tree, hl, hw⟩ := findOne_ok_walk w fsf r ms hf
    obtain ⟨dirs, _, _, hmf⟩ := walkDir_located fsf _ tree r ms hw m hmem
    obtain ⟨_, _, hex, _⟩ := matchFile_mem fsf m.Name m.Path m hmf
    exact hex (heq ▸ he)
  · intro name path hex ⟨ft, hft, hmem⟩
    rw [walkDir_file, matchFile_of_not_excluded fsf name path hex]
    cases hm : matchFileType fsf.FileTypes (ToLower (walkFileExtension fsf name path)) with
    | none => exact absurd hmem ((matchFileType_none _ _).mp hm ft hft)
    | some ft1 => exact ⟨ft1, rfl⟩

/-- Witness of C10: with `json` excluded, `a.json` is rejected. -/
theorem excluded_extension_rejected_witness :
    "json" ∈ finderCase.ExcludeFileTypes ∧
      walkDir finderCase 0 "conf/a.json" (.file "a.json") = .next [] :=
  ⟨by decide,
    (excluded_extension_rejected worldCase finderCase 0 "json" (by decide)).1
      "a.json" "conf/a.json" (by decide)⟩

/-! ### C9 -/

/-- C9: a finder built with the external-configuration option fails loudly: for
every path of a configuration file, in every filesystem and after any other options,
discovery returns the error `ConfigurationUnavailable` of that path and no result,
so it never proceeds with the remaining configuration as `Find` alone does; the
missing file of `Test_fsFinderBadConfig` is one such path. -/
theorem FindWithConfig_fails_loudly (w : World) (builtin : List FileType)
    (opts : List FSFinderOptions) (file : String) :
    FindWithConfig w builtin opts file = .error (ConfigurationUnavailable file) ∧
    (∀ res, FindWithConfig w builtin opts file ≠ .ok res) ∧
    (∀ res, Find w (FileSystemFinderInit builtin opts) = .ok res →
      FindWithConfig w builtin opts file ≠ Find w (FileSystemFinderInit builtin opts)) ∧
    worldConfig.stat "../../test/fixtures/notHere.yaml" =
      some ⟨"stat", "../../test/fixtures/notHere.yaml", ENOENT⟩ ∧
    Find worldConfig (FileSystemFinderInit [jsonType, yamlType] []) = .ok [] ∧
    FindWithConfig worldConfig [jsonType, yamlType] [] "../../test/fixtures/notHere.yaml" =
      .error (ConfigurationUnavailable "../../test/fixtures/notHere.yaml") := by
  have h0 : FindWithConfig w builtin opts file = .error (ConfigurationUnavailable file) :=
    rfl
  refine ⟨h0, ?_, ?_, by decide, by decide, rfl⟩
  · intro res h
    rw [h0] at h
    cases h
  · intro res hres h
    rw [h0, hres] at h
    cases h

/-! ### C8 -/

theorem wrapInt_of_range (x : Int) (h0 : 0 ≤ x) (h1 : x ≤ maxInt) : wrapInt x = x := by
  unfold wrapInt
  unfold maxInt at h1
  have h2 : (x + 2 ^ 63) % 2 ^ 64 = x + 2 ^ 63 := by
    apply Int.emod_eq_of_lt
    · omega
    · omega
  rw [h2]
  omega

theorem skipCond_no_depth (fsf : FileSystemFinder) (md : Int) (name path : String) :
    skipCond { fsf with Depth := none } md name path true =
      decide (name ∈ fsf.ExcludeDirs) := by
  simp [skipCond]

theorem skipCond_within (fsf : FileSystemFinder) (d md : Int) (name path : String)
    (h : (sepCount path : Int) ≤ md) :
    skipCond { fsf with Depth := some d } md name path true =
      decide (name ∈ fsf.ExcludeDirs) := by
  have : ¬ (sepCount path : Int) > md := by omega
  simp [skipCond, this]

mutual
/-- A depth bound that no directory of the tree exceeds changes nothing. -/
theorem walkDir_depth_enough (fsf : FileSystemFinder) (d md md1 : Int) :
    ∀ (n : Node) (path : String), namesOk n = true →
      (n.isDir = true → (sepCount path : Int) + levels n ≤ md) →
      walkDir { fsf with Depth := some d } md path n =
        walkDir { fsf with Depth := none } md1 path n
  | .file name, path, _, _ => by
    rw [walkDir_file, walkDir_file]
    rfl
  | .dir name re ch, path, hn, hl => by
    have hl1 : (sepCount path : Int) + levelsEntries ch ≤ md := by
      have := hl rfl
      rw [levels] at this
      exact this
    have hn1 : namesOkEntries ch = true := by
      rw [namesOk] at hn
      exact hn
    rw [walkDir_dir, walkDir_dir, skipCond_no_depth,
      skipCond_within fsf d md name path (by omega)]
    cases re with
    | some e => rfl
    | none =>
      simp only
      rw [walkEntries_depth_enough fsf d md md1 ch path hn1 hl1]
theorem walkEntries_depth_enough (fsf : FileSystemFinder) (d md md1 : Int) :
    ∀ (ds : List Node) (path : String), namesOkEntries ds = true →
      (sepCount path : Int) + levelsEntries ds ≤ md →
      walkEntries { fsf with Depth := some d } md path ds =
        walkEntries { fsf with Depth := none } md1 path ds
  | [], path, _, _ => by rw [walkEntries, walkEntries]
  | c :: ds, path, hn, hl => by
    rw [namesOkEntries] at hn
    simp only [Bool.and_eq_true, Bool.not_eq_true', List.contains_eq_any_beq,
      List.any_eq_false, beq_iff_eq] at hn
    obtain ⟨⟨hname, hc⟩, hds⟩ := hn
    have hsep : sep ∉ c.name.data := by
      intro hmem
      exact hname sep hmem rfl
    have hj := sepCount_Join path c.name hsep
    rw [levelsEntries] at hl
    have hl2 : (sepCount path : Int) + levelsEntries ds ≤ md := by
      have : levelsEntries ds ≤ max (if c.isDir = true then levels c + 1 else 0)
          (levelsEntries ds) := le_max_right _ _
      omega
    have hl3 : c.isDir = true → (sepCount (Join path c.name) : Int) + levels c ≤ md := by
      intro hdir
      have : levels c + 1 ≤ max (if c.isDir = true then levels c + 1 else 0)
          (levelsEntries ds) := by
        rw [if_pos hdir]
        exact le_max_left _ _
      omega
    rw [walkEntries_cons, walkEntries_cons,
      walkDir_depth_enough fsf d md md1 c (Join path c.name) hc hl3,
      walkEntries_depth_enough fsf d md md1 ds path hds hl2]
end

/-- In the range of `int`, every depth limit that is at least the number of directory
levels below the root gives what an absent `Depth` gives. -/
theorem findOne_depth_enough (w : World) (fsf : FileSystemFinder) (root : String)
    (d : Int)
    (htree : ∀ tree, w.lstat root = .ok tree →
      namesOk tree = true ∧ (levels tree : Int) ≤ d)
    (hd : 0 ≤ d) (hrange : (sepCount root : Int) + d ≤ maxInt) :
    findOne w { fsf with Depth := some d } root =
      findOne w { fsf with Depth := none } root := by
  have hmd : maxDepthOf { fsf with Depth := some d } root = (sepCount root : Int) + d := by
    unfold maxDepthOf
    simp only
    exact wrapInt_of_range _ (by omega) hrange
  have hW : WalkDir w { fsf with Depth := some d } (maxDepthOf { fsf with Depth := some d } root) root =
      WalkDir w { fsf with Depth := none } (maxDepthOf { fsf with Depth := none } root) root := by
    rw [WalkDir_eq, WalkDir_eq]
    cases hl : w.lstat root with
    | error e => rfl
    | ok tree =>
      obtain ⟨h1, h2⟩ := htree tree hl
      simp only
      apply walkDir_depth_enough fsf d _ _ tree root h1
      intro _
      rw [hmd]
      omega
  rw [findOne_eq, findOne_eq, hW]

/-- C8, the code at a failing input: on the root `a/b`, whose tree has one directory
level below it, the depth limits 5 and `maxInt` are both large enough, yet with
`maxInt` the sum `maxDepth` wraps around and nothing is returned, while the limit 5
and an absent `Depth` return both files. -/
theorem findOne_depth_wraps_around :
    findOne worldNested (finderNested (some maxInt)) "a/b" = .ok [] ∧
      findOne worldNested (finderNested (some 5)) "a/b" =
        .ok [⟨"low.json", "a/b/c/low.json", jsonType⟩,
          ⟨"top.json", "a/b/top.json", jsonType⟩] ∧
      findOne worldNested (finderNested none) "a/b" =
        .ok [⟨"low.json", "a/b/c/low.json", jsonType⟩,
          ⟨"top.json", "a/b/top.json", jsonType⟩] ∧
      levels (.dir "b" none [.dir "c" none [.file "low.json"], .file "top.json"]) = 1 ∧
      maxDepthOf (finderNested (some maxInt)) "a/b" = -(2 ^ 63) := by
  decide

/-! ### C11 -/

/-- The callback on a file, as a function of `walkFileExtension`. -/
theorem matchFile_eq (fsf : FileSystemFinder) (name path : String) :
    matchFile fsf name path =
      if walkFileExtension fsf name path ∈ fsf.ExcludeFileTypes then []
      else
        match matchFileType fsf.FileTypes (ToLower (walkFileExtension fsf name path)) with
        | some fileType => [⟨name, path, fileType⟩]
        | none => [] := by
  rfl

theorem walkFileExtension_of_override (fsf : FileSystemFinder) (name path v : String)
    (hext : trimDot (Ext path) = "") (hv : fsf.AdditionalFiles.lookup name = some v) :
    walkFileExtension fsf name path = v := by
  unfold walkFileExtension
  simp only [hext, hv]
  rfl

/-- C11: `AdditionalFiles` is consulted for extensionless files only. A visited file
whose parsed extension is not empty has the same outcome under every
`AdditionalFiles` table, one that holds its base name included; a file whose parsed
extension is empty and whose base name is mapped to `v` is treated as a file with the
extension `v`: it is rejected when `v` is in `ExcludeFileTypes`, it is matched against
the registry with the lower-cased `v`, and it gets the outcome (emitted or not, and
the `FileType`) of any file whose parsed extension is `v`. -/
theorem additional_files_only_for_extensionless (fsf : FileSystemFinder) (maxDepth : Int)
    (name path : String) :
    (trimDot (Ext path) ≠ "" → ∀ add1 add2 : List (String × String),
      walkDir { fsf with AdditionalFiles := add1 } maxDepth path (.file name) =
        walkDir { fsf with AdditionalFiles := add2 } maxDepth path (.file name)) ∧
    (∀ v, trimDot (Ext path) = "" → fsf.AdditionalFiles.lookup name = some v →
      walkFileExtension fsf name path = v ∧
      walkDir fsf maxDepth path (.file name) =
        .next (if v ∈ fsf.ExcludeFileTypes then []
          else
            match matchFileType fsf.FileTypes (ToLower v) with
            | some fileType => [⟨name, path, fileType⟩]
            | none => []) ∧
      ∀ name2 path2, trimDot (Ext path2) = v → v ≠ "" →
        (matchFile fsf name2 path2).map (fun m => m.FileType) =
          (matchFile fsf name path).map (fun m => m.FileType)) := by
  constructor
  · intro hne add1 add2
    rw [walkDir_file, walkDir_file, matchFile_eq, matchFile_eq,
      walkFileExtension_of_ext _ name path hne, walkFileExtension_of_ext _ name path hne]
  · intro v hext hv
    have hw := walkFileExtension_of_override fsf name path v hext hv
    refine ⟨hw, ?_, ?_⟩
    · rw [walkDir_file, matchFile_eq, hw]
    · intro name2 path2 h2 hvne
      have hw2 : walkFileExtension fsf name2 path2 = v := by
        rw [walkFileExtension_of_ext fsf name2 path2 (by rw [h2]; exact hvne), h2]
      rw [matchFile_eq, matchFile_eq, hw, hw2]
      split
      · rfl
      · cases matchFileType fsf.FileTypes (ToLower v) <;> rfl

/-- Witness of C11: `Makefile`, mapped to `make`, is treated as a file with the
extension `make`. -/
theorem additional_files_only_for_extensionless_witness :
    (trimDot (Ext "proj/Makefile") = "" ∧
      finderMake.AdditionalFiles.lookup "Makefile" = some "make") ∧
    walkDir finderMake 0 "proj/Makefile" (.file "Makefile") =
      .next (if "make" ∈ finderMake.ExcludeFileTypes then []
        else
          match matchFileType finderMake.FileTypes (ToLower "make") with
          | some fileType => [⟨"Makefile", "proj/Makefile", fileType⟩]
          | none => []) :=
  ⟨⟨by decide, by decide⟩,
    ((additional_files_only_for_extensionless finderMake 0 "Makefile" "proj/Makefile").2
      "make" (by decide) (by decide)).2.1⟩

/-! ### C14 -/

/-- C14: `WithFileTypes` replaces the registry: the finder built with
`WithFileTypes(reg)` has `reg` as its registry, whatever the built-in one, and the
other options leave the registry as it is; every entry that `Find` returns on a
finder with the registry `reg` carries a `FileType` that is an element of `reg` and
holds the lower-cased extension of the entry, and a file whose lower-cased extension
is in no element of `reg` is not in the result. -/
theorem Find_uses_custom_registry (w : World) (fsf : FileSystemFinder)
    (reg : List FileType) (res : List FileMetadata) (hreg : fsf.FileTypes = reg)
    (h : Find w fsf = .ok res) :
    (∀ builtin pre, (FileSystemFinderInit builtin (pre ++ [WithFileTypes reg])).FileTypes
      = reg) ∧
    (∀ (fsf0 : FileSystemFinder) (roots dirs types files : List String) (depth : Int),
      (WithFileTypes reg fsf0).FileTypes = reg ∧
      (WithPathRoots roots fsf0).FileTypes = fsf0.FileTypes ∧
      (WithExcludeDirs dirs fsf0).FileTypes = fsf0.FileTypes ∧
      (WithExcludeFileTypes types fsf0).FileTypes = fsf0.FileTypes ∧
      (WithDepth depth fsf0).FileTypes = fsf0.FileTypes ∧
      (AddFiles files fsf0).FileTypes = fsf0.FileTypes) ∧
    (∀ m ∈ res, m.FileType ∈ reg ∧
      ToLower (walkFileExtension fsf m.Name m.Path) ∈ m.FileType.Extensions) ∧
    (∀ name path,
      (∀ ft ∈ reg, ToLower (walkFileExtension fsf name path) ∉ ft.Extensions) →
      ∀ m ∈ res, ¬ (m.Name = name ∧ m.Path = path)) := by
  have key : ∀ m ∈ res, m.FileType ∈ reg ∧
      ToLower (walkFileExtension fsf m.Name m.Path) ∈ m.FileType.Extensions := by
    intro m hm
    obtain ⟨r, hr, ms, hf, hmem⟩ := Find_sub w _ res h m hm
    obtain ⟨tree, hl, hw⟩ := findOne_ok_walk w _ r ms hf
    obtain ⟨dirs, _, _, hmf⟩ := walkDir_located _ _ tree r ms hw m hmem
    obtain ⟨_, _, _, hft⟩ := matchFile_mem _ m.Name m.Path m hmf
    obtain ⟨pre, post, h1, h2, _⟩ := matchFileType_some _ _ _ hft
    refine ⟨?_, h2⟩
    rw [hreg] at h1
    rw [h1]
    simp
  refine ⟨?_, ?_, key, ?_⟩
  · intro builtin pre
    simp [FileSystemFinderInit, List.foldl_append, WithFileTypes]
  · intro fsf0 roots dirs types files depth
    refine ⟨rfl, rfl, rfl, rfl, rfl, ?_⟩
    unfold AddFiles
    split <;> rfl
  · intro name path hno m hm ⟨hn, hp⟩
    obtain ⟨h1, h2⟩ := key m hm
    rw [hn, hp] at h2
    exact hno m.FileType h1 h2

/-- Witness of C14: with the registry restricted to JSON the YAML file of the
fixtures is left out. -/
theorem Find_uses_custom_registry_witness :
    Find worldFixtures (WithFileTypes [jsonType] finderExcludeDirs) =
        .ok [⟨"good.json", "fixtures/good.json", jsonType⟩] ∧
      ∀ m ∈ [(⟨"good.json", "fixtures/good.json", jsonType⟩ : FileMetadata)],
        ¬ (m.Name = "k.yaml" ∧ m.Path = "fixtures/keep/k.yaml") :=
  ⟨by decide,
    (Find_uses_custom_registry worldFixtures (WithFileTypes [jsonType] finderExcludeDirs)
      [jsonType] [⟨"good.json", "fixtures/good.json", jsonType⟩] rfl (by decide)).2.2.2
      "k.yaml" "fixtures/keep/k.yaml" (by decide)⟩

/-! ### C16 -/

/-- Counterexample to C16 as stated: the registry lists the empty extension, and the
extensionless file `Makefile`, which no `AdditionalFiles` entry names, is emitted by
`findOne`. -/
theorem findOne_emits_extensionless_file :
    findOne worldMake finderPlain "proj" =
        .ok [⟨"Makefile", "proj/Makefile", plainType⟩] ∧
      trimDot (Ext "proj/Makefile") = "" ∧
      finderPlain.AdditionalFiles.lookup "Makefile" = none := by
  decide

/-- C16, amended: for a visited file with an empty parsed extension whose base name
is not a key of `AdditionalFiles` the extension remains empty; the file is emitted
only if the empty extension is not in `ExcludeFileTypes` and some registered
`FileType` lists the empty extension, so with a registry none of whose types lists
the empty extension it is never emitted, whatever `ExcludeFileTypes` is. -/
theorem extensionless_file_without_override (fsf : FileSystemFinder) (maxDepth : Int)
    (name path : String) (hext : trimDot (Ext path) = "")
    (hno : fsf.AdditionalFiles.lookup name = none) :
    walkFileExtension fsf name path = "" ∧
    ((∀ ft ∈ fsf.FileTypes, "" ∉ ft.Extensions) →
      walkDir fsf maxDepth path (.file name) = .next []) ∧
    ("" ∈ fsf.ExcludeFileTypes → walkDir fsf maxDepth path (.file name) = .next []) ∧
    (∀ m, walkDir fsf maxDepth path (.file name) = .next [m] →
      "" ∉ fsf.ExcludeFileTypes ∧ m.FileType ∈ fsf.FileTypes ∧ "" ∈ m.FileType.Extensions) := by
  have hw : walkFileExtension fsf name path = "" := by
    rw [walkFileExtension_of_no_override fsf name path hno, hext]
  have hl : ToLower "" = "" := by decide
  refine ⟨hw, ?_, ?_, ?_⟩
  · intro hreg
    rw [walkDir_file, matchFile_eq, hw, hl, (matchFileType_none _ _).mpr hreg]
    split <;> rfl
  · intro hex
    rw [walkDir_file, matchFile_eq, hw, if_pos hex]
  · intro m hm
    rw [walkDir_file] at hm
    injection hm with hm
    have hmem : m ∈ matchFile fsf name path := by rw [hm]; simp
    obtain ⟨_, _, h3, h4⟩ := matchFile_mem fsf name path m hmem
    rw [hw] at h3
    rw [hw, hl] at h4
    obtain ⟨pre, post, h5, h6, _⟩ := matchFileType_some _ _ _ h4
    exact ⟨h3, by rw [h5]; simp, h6⟩

/-- Witness of C16: `Makefile` under a registry without the empty extension. -/
theorem extensionless_file_without_override_witness :
    (trimDot (Ext "proj/Makefile") = "" ∧
      finderAbs.AdditionalFiles.lookup "Makefile" = none) ∧
    walkDir finderAbs 0 "proj/Makefile" (.file "Makefile") = .next [] :=
  ⟨⟨by decide, by decide⟩,
    (extensionless_file_without_override finderAbs 0 "Makefile" "proj/Makefile"
      (by decide) (by decide)).2.1 (by decide)⟩

/-! ### C17 -/

/-- C17: `WithPathRoots` without paths replaces the default root by no root, the
options applied after it leave it so, and `Find` on a finder without roots returns
the empty result and no error in every filesystem. -/
theorem Find_without_roots (w : World) (fsf : FileSystemFinder) (builtin : List FileType)
    (pre : List FSFinderOptions) :
    (FileSystemFinderInit builtin []).PathRoots = ["."] ∧
    (FileSystemFinderInit builtin (pre ++ [WithPathRoots []])).PathRoots = [] ∧
    Find w (WithPathRoots [] fsf) = .ok [] ∧
    Find w finderNoRoots = .ok [] ∧
    (∀ (reg : List FileType) (dirs types files : List String) (depth : Int),
      Find w (WithFileTypes reg (WithPathRoots [] fsf)) = .ok [] ∧
      Find w (WithExcludeDirs dirs (WithPathRoots [] fsf)) = .ok [] ∧
      Find w (WithExcludeFileTypes types (WithPathRoots [] fsf)) = .ok [] ∧
      Find w (WithDepth depth (WithPathRoots [] fsf)) = .ok [] ∧
      Find w (AddFiles files (WithPathRoots [] fsf)) = .ok []) := by
  refine ⟨rfl, ?_, rfl, rfl, ?_⟩
  · simp [FileSystemFinderInit, List.foldl_append, WithPathRoots]
  · intro reg dirs types files depth
    refine ⟨rfl, rfl, rfl, rfl, ?_⟩
    unfold AddFiles
    split <;> rfl

/-! ### C20 -/

/-- C20: for a root that names an existing file, `findOne` returns what the
classification of that file gives, the one entry of the file or nothing, and this is
the same for every `Depth` and every `ExcludeDirs`, one that holds the base name of
the file included. -/
theorem findOne_file_root (w : World) (fsf : FileSystemFinder) (root name : String)
    (hstat : w.stat root = none) (hl : w.lstat root = .ok (.file name)) :
    findOne w fsf root = .ok (matchFile fsf name root) ∧
    (matchFile fsf name root = [] ∨ ∃ ft, matchFile fsf name root = [⟨name, root, ft⟩]) ∧
    (∀ (depth : Option Int) (excl : List String),
      findOne w { fsf with Depth := depth, ExcludeDirs := excl } root =
        findOne w fsf root) := by
  have key : ∀ fsf1 : FileSystemFinder,
      findOne w fsf1 root = .ok (matchFile fsf1 name root) := by
    intro fsf1
    rw [findOne_eq, hstat, WalkDir_eq, hl]
    simp only
    rw [walkDir_file]
    rfl
  refine ⟨key fsf, ?_, ?_⟩
  · rw [matchFile_eq]
    split
    · exact Or.inl rfl
    · cases matchFileType fsf.FileTypes (ToLower (walkFileExtension fsf name root)) with
      | none => exact Or.inl rfl
      | some ft => exact Or.inr ⟨ft, rfl⟩
  · intro depth excl
    rw [key, key]
    rfl

/-- Witness of C20: a JSON file as root, with a negative depth and its own name in
`ExcludeDirs`. -/
theorem findOne_file_root_witness :
    (worldFiles.stat "../../test/fixtures/good.json" = none ∧
      worldFiles.lstat "../../test/fixtures/good.json" = .ok (.file "good.json")) ∧
    findOne worldFiles finderFileRoot "../../test/fixtures/good.json" =
      .ok (matchFile finderFileRoot "good.json" "../../test/fixtures/good.json") :=
  ⟨⟨by decide, rfl⟩,
    (findOne_file_root worldFiles finderFileRoot "../../test/fixtures/good.json"
      "good.json" (by decide) rfl).1⟩

/-! ### C12 -/

theorem splitAtChar_cut :
    ∀ (s : List Char),
      (cutAtColon s = none → splitAtChar ':' s = [s]) ∧
      (∀ k v, cutAtColon s = some (k, v) → splitAtChar ':' s = k :: splitAtChar ':' v)
  | [] => by simp [cutAtColon, splitAtChar]
  | c :: cs => by
    obtain ⟨ih1, ih2⟩ := splitAtChar_cut cs
    by_cases hc : c = ':'
    · subst hc
      constructor
      · intro h
        simp [cutAtColon] at h
      · intro k v h
        simp only [cutAtColon, if_true, Option.some.injEq, Prod.mk.injEq] at h
        obtain ⟨rfl, rfl⟩ := h
        rw [splitAtChar, if_pos rfl]
    · constructor
      · intro h
        rw [cutAtColon, if_neg hc] at h
        cases hcut : cutAtColon cs with
        | none => rw [splitAtChar, if_neg hc, ih1 hcut]
        | some p => rw [hcut] at h; cases h
      · intro k v h
        rw [cutAtColon, if_neg hc] at h
        cases hcut : cutAtColon cs with
        | none => rw [hcut] at h; cases h
        | some p =>
          obtain ⟨k1, v1⟩ := p
          rw [hcut] at h
          simp only [Option.some.injEq, Prod.mk.injEq] at h
          obtain ⟨rfl, rfl⟩ := h
          rw [splitAtChar, if_neg hc, ih2 k1 v1 hcut]

/-- The test `len(kv) == 2` of `AddFiles` holds for the specs with exactly one colon. -/
theorem split_eq_specParts (f : String) :
    (match splitAtChar ':' f.data with
      | [k, v] => some ((⟨k⟩ : String), (⟨v⟩ : String))
      | _ => none) = specParts f := by
  unfold specParts
  obtain ⟨h1, h2⟩ := splitAtChar_cut f.data
  cases hcut : cutAtColon f.data with
  | none => rw [h1 hcut]
  | some p =>
    obtain ⟨k, v⟩ := p
    rw [h2 k v hcut]
    simp only
    by_cases hv : ':' ∈ v
    · rw [if_pos hv]
      have hlen := splitAtChar_length ':' v
      have hpos : 0 < v.count ':' := List.count_pos_iff.mpr hv
      cases hs : splitAtChar ':' v with
      | nil => exact absurd hs (splitAtChar_ne_nil _ _)
      | cons a t =>
        cases t with
        | nil =>
          rw [hs, List.length_singleton] at hlen
          omega
        | cons b t2 =>
          cases t2 <;> rfl
    · rw [if_neg hv, splitAtChar_of_not_mem ':' v hv]

theorem addFileSpecs_cons (m : List (String × String)) (f : String) (fs : List String) :
    addFileSpecs m (f :: fs) =
      match specParts f with
      | some (k, v) => addFileSpecs (mapSet k v m) fs
      | none => addFileSpecs m fs := by
  rw [← split_eq_specParts f, addFileSpecs]
  split <;> rfl

theorem lookup_filter_ne (k k1 : String) (h : k ≠ k1) :
    ∀ m : List (String × String),
      (m.filter (fun p => p.1 ≠ k1)).lookup k = m.lookup k
  | [] => rfl
  | (a, b) :: m => by
    have ih := lookup_filter_ne k k1 h m
    by_cases ha : a = k1
    · subst ha
      have hka : (k == a) = false := by simpa using h
      rw [List.filter_cons_of_neg (by simp), List.lookup, hka]
      exact ih
    · rw [List.filter_cons_of_pos (by simpa using ha)]
      by_cases hk : k = a
      · subst hk
        simp [List.lookup]
      · have hka : (k == a) = false := by simpa using hk
        rw [List.lookup, List.lookup, hka]
        exact ih

theorem lookup_mapSet (k k1 v : String) (m : List (String × String)) :
    (mapSet k1 v m).lookup k = if k = k1 then some v else m.lookup k := by
  unfold mapSet
  by_cases h : k = k1
  · subst h
    simp [List.lookup]
  · have hb : (k == k1) = false := by simpa using h
    rw [List.lookup, hb, if_neg h]
    exact lookup_filter_ne k k1 h m

theorem lookup_snoc (k k1 v : String) (l : List (String × String)) :
    (l ++ [(k1, v)]).lookup k =
      match l.lookup k with
      | some x => some x
      | none => if k = k1 then some v else none := by
  induction l with
  | nil =>
    by_cases h : k = k1
    · subst h; simp [List.lookup]
    · have hb : (k == k1) = false := by simpa using h
      simp [List.lookup, hb, h]
  | cons p l ih =>
    obtain ⟨a, b⟩ := p
    by_cases hk : k = a
    · subst hk
      simp [List.lookup]
    · have hka : (k == a) = false := by simpa using hk
      simp only [List.cons_append, List.lookup, hka]
      exact ih

/-- The table built by the loop of `AddFiles`, read at a name. -/
theorem lookup_addFileSpecs (k : String) :
    ∀ (files : List String) (m : List (String × String)),
      (addFileSpecs m files).lookup k =
        match specValue files k with
        | some v => some v
        | none => m.lookup k
  | [], m => by simp [addFileSpecs, specValue]
  | f :: fs, m => by
    rw [addFileSpecs_cons]
    cases hp : specParts f with
    | none =>
      simp only
      rw [lookup_addFileSpecs k fs m]
      simp [specValue, hp]
    | some p =>
      obtain ⟨k1, v1⟩ := p
      simp only
      rw [lookup_addFileSpecs k fs (mapSet k1 v1 m), lookup_mapSet]
      have hv : specValue (f :: fs) k =
          match specValue fs k with
          | some x => some x
          | none => if k = k1 then some v1 else none := by
        simp only [specValue, List.filterMap_cons, hp, List.reverse_cons]
        exact lookup_snoc k k1 v1 _
      rw [hv]
      cases specValue fs k with
      | some x => rfl
      | none =>
        simp only
        split <;> rfl

theorem mapSet_keys_nodup (k v : String) (m : List (String × String))
    (h : (m.map Prod.fst).Nodup) : ((mapSet k v m).map Prod.fst).Nodup := by
  unfold mapSet
  rw [List.map_cons, List.nodup_cons]
  constructor
  · intro hmem
    obtain ⟨p, hp, hk⟩ := List.mem_map.mp hmem
    have := (List.mem_filter.mp hp).2
    simp at this
    exact this hk
  · exact h.sublist ((List.filter_sublist _).map _)

theorem addFileSpecs_keys_nodup :
    ∀ (files : List String) (m : List (String × String)),
      (m.map Prod.fst).Nodup → ((addFileSpecs m files).map Prod.fst).Nodup
  | [], m, h => by simpa [addFileSpecs] using h
  | f :: fs, m, h => by
    rw [addFileSpecs_cons]
    cases hp : specParts f with
    | none => exact addFileSpecs_keys_nodup fs m h
    | some p =>
      obtain ⟨k1, v1⟩ := p
      exact addFileSpecs_keys_nodup fs _ (mapSet_keys_nodup k1 v1 m h)

theorem mem_iff_lookup_of_nodup :
    ∀ (m : List (String × String)), (m.map Prod.fst).Nodup →
      ∀ k v, (k, v) ∈ m ↔ m.lookup k = some v
  | [], _, k, v => by simp
  | (a, b) :: m, h, k, v => by
    rw [List.map_cons, List.nodup_cons] at h
    obtain ⟨ha, hm⟩ := h
    have ih := mem_iff_lookup_of_nodup m hm k v
    by_cases hk : k = a
    · subst hk
      simp only [List.mem_cons, Prod.mk.injEq, true_and, List.lookup, beq_self_eq_true,
        Option.some.injEq]
      constructor
      · rintro (h1 | h1)
        · exact h1.symm
        · exact absurd (List.mem_map.mpr ⟨(k, v), h1, rfl⟩) ha
      · intro h1
        exact Or.inl h1.symm
    · have hka : (k == a) = false := by simpa using hk
      simp only [List.mem_cons, Prod.mk.injEq, hk, false_and, false_or, List.lookup, hka]
      exact ih

theorem cutAtColon_some :
    ∀ (s k v : List Char), cutAtColon s = some (k, v) → s = k ++ ':' :: v ∧ ':' ∉ k
  | [], k, v, h => by simp [cutAtColon] at h
  | c :: cs, k, v, h => by
    by_cases hc : c = ':'
    · subst hc
      simp only [cutAtColon, if_true, Option.some.injEq, Prod.mk.injEq] at h
      obtain ⟨rfl, rfl⟩ := h
      simp
    · rw [cutAtColon, if_neg hc] at h
      cases hcut : cutAtColon cs with
      | none => rw [hcut] at h; cases h
      | some p =>
        obtain ⟨k1, v1⟩ := p
        rw [hcut] at h
        simp only [Option.some.injEq, Prod.mk.injEq] at h
        obtain ⟨rfl, rfl⟩ := h
        obtain ⟨h1, h2⟩ := cutAtColon_some cs k1 v1 hcut
        refine ⟨by rw [h1]; rfl, ?_⟩
        intro hmem
        rcases List.mem_cons.mp hmem with h3 | h3
        · exact hc h3.symm
        · exact h2 h3

theorem cutAtColon_none :
    ∀ (s : List Char), cutAtColon s = none → ':' ∉ s
  | [], _ => by simp
  | c :: cs, h => by
    by_cases hc : c = ':'
    · subst hc
      simp [cutAtColon] at h
    · rw [cutAtColon, if_neg hc] at h
      cases hcut : cutAtColon cs with
      | none =>
        intro hmem
        rcases List.mem_cons.mp hmem with h3 | h3
        · exact hc h3.symm
        · exact cutAtColon_none cs hcut h3
      | some p => rw [hcut] at h; cases h

/-- A spec has a name and an extension exactly when it has one colon. -/
theorem specParts_isSome_iff (f : String) :
    (specParts f).isSome = true ↔ f.data.count ':' = 1 := by
  unfold specParts
  cases hcut : cutAtColon f.data with
  | none =>
    have := cutAtColon_none f.data hcut
    have h0 : f.data.count ':' = 0 := List.count_eq_zero.mpr this
    simp [h0]
  | some p =>
    obtain ⟨k, v⟩ := p
    obtain ⟨h1, h2⟩ := cutAtColon_some f.data k v hcut
    have hk : k.count ':' = 0 := List.count_eq_zero.mpr h2
    have hcount : f.data.count ':' = v.count ':' + 1 := by
      rw [h1, List.count_append, List.count_cons_self, hk]
      omega
    simp only
    by_cases hv : ':' ∈ v
    · have hpos : 0 < v.count ':' := List.count_pos_iff.mpr hv
      rw [if_pos hv]
      simp
      omega
    · have h0 : v.count ':' = 0 := List.count_eq_zero.mpr hv
      rw [if_neg hv]
      simp
      omega

theorem filterMap_specParts_filter :
    ∀ files : List String,
      (files.filter (fun f => decide (f.data.count ':' = 1))).filterMap specParts =
        files.filterMap specParts
  | [] => rfl
  | f :: fs => by
    have ih := filterMap_specParts_filter fs
    by_cases h : f.data.count ':' = 1
    · rw [List.filter_cons_of_pos (by simpa using h), List.filterMap_cons,
        List.filterMap_cons, ih]
    · have hnone : specParts f = none := by
        cases hp : specParts f with
        | none => rfl
        | some p =>
          exfalso
          apply h
          exact (specParts_isSome_iff f).mp (by rw [hp]; rfl)
      rw [List.filter_cons_of_neg (by simpa using h), List.filterMap_cons, hnone, ih]

/-- C12: for a non-empty list of specs `AddFiles` sets `AdditionalFiles` to the table
that maps a name to an extension exactly when some spec with exactly one colon has
that name, the extension being the one of the last such spec; each name is a key at
most once, the specs with no colon or with several colons contribute nothing, and
the other fields of the finder are left as they were. -/
theorem AddFiles_sets_table (fsf : FileSystemFinder) (files : List String)
    (hne : files ≠ []) :
    (∀ k, (AddFiles files fsf).AdditionalFiles.lookup k = specValue files k) ∧
    (∀ k v, (k, v) ∈ (AddFiles files fsf).AdditionalFiles ↔ specValue files k = some v) ∧
    ((AddFiles files fsf).AdditionalFiles.map Prod.fst).Nodup ∧
    (∀ k, specValue files k =
      specValue (files.filter (fun f => decide (f.data.count ':' = 1))) k) ∧
    (∀ f, (specParts f).isSome = true ↔ f.data.count ':' = 1) ∧
    AddFiles files fsf =
      { fsf with AdditionalFiles := (AddFiles files fsf).AdditionalFiles } := by
  have hlen : files.length > 0 := List.length_pos.mpr hne
  have htab : (AddFiles files fsf).AdditionalFiles = addFileSpecs [] files := by
    unfold AddFiles
    rw [if_pos hlen]
  have hlook : ∀ k, (AddFiles files fsf).AdditionalFiles.lookup k = specValue files k := by
    intro k
    rw [htab, lookup_addFileSpecs]
    cases specValue files k <;> rfl
  have hnodup : ((AddFiles files fsf).AdditionalFiles.map Prod.fst).Nodup := by
    rw [htab]
    exact addFileSpecs_keys_nodup files [] (by simp)
  refine ⟨hlook, ?_, hnodup, ?_, specParts_isSome_iff, ?_⟩
  · intro k v
    rw [mem_iff_lookup_of_nodup _ hnodup, hlook]
  · intro k
    unfold specValue
    rw [filterMap_specParts_filter]
  · unfold AddFiles
    rw [if_pos hlen]

/-- Witness of C12: of five specs, three have exactly one colon; `Makefile` gets the
extension of the later of its two specs. -/
theorem AddFiles_sets_table_witness :
    exampleSpecs ≠ [] ∧
      (AddFiles exampleSpecs finderAbs).AdditionalFiles =
        [("Jenkinsfile", "groovy"), ("Makefile", "mk")] ∧
      ∀ k, (AddFiles exampleSpecs finderAbs).AdditionalFiles.lookup k =
        specValue exampleSpecs k :=
  ⟨by decide, by decide, (AddFiles_sets_table finderAbs exampleSpecs (by decide)).1⟩

/-! ### C13 -/

/-- Counterexample to C13 as stated: `AddFiles` with an empty list after `AddFiles`
with a spec keeps the table of the first, and differs from `AddFiles` with the empty
list alone. -/
theorem AddFiles_empty_does_not_overwrite :
    FileSystemFinderInit [jsonType] [AddFiles ["Makefile:make"], AddFiles []] ≠
        FileSystemFinderInit [jsonType] [AddFiles []] ∧
      (FileSystemFinderInit [jsonType] [AddFiles ["Makefile:make"], AddFiles []]).AdditionalFiles
        = [("Makefile", "make")] ∧
      (FileSystemFinderInit [jsonType] [AddFiles []]).AdditionalFiles = [] := by
  decide

theorem Init_snoc (builtin : List FileType) (pre : List FSFinderOptions)
    (o : FSFinderOptions) :
    FileSystemFinderInit builtin (pre ++ [o]) = o (FileSystemFinderInit builtin pre) := by
  simp [FileSystemFinderInit, List.foldl_append]

theorem Init_snoc_two (builtin : List FileType) (pre : List FSFinderOptions)
    (o1 o2 : FSFinderOptions) :
    FileSystemFinderInit builtin (pre ++ [o1, o2]) =
      o2 (o1 (FileSystemFinderInit builtin pre)) := by
  simp [FileSystemFinderInit, List.foldl_append]

/-- C13, amended: the options overwrite, the last one applied wins and nothing is
merged: for `WithPathRoots`, `WithFileTypes`, `WithExcludeDirs`,
`WithExcludeFileTypes` and `WithDepth`, with any two arguments (empty lists
included) and after any options, the option applied twice gives the configuration of
its second application alone; so does `AddFiles` when its second list is not empty,
while `AddFiles` with an empty list changes nothing. -/
theorem options_last_wins (builtin : List FileType) (pre : List FSFinderOptions)
    (filesA filesB : List String) (hB : filesB ≠ []) :
    (∀ a b, FileSystemFinderInit builtin (pre ++ [WithPathRoots a, WithPathRoots b]) =
      FileSystemFinderInit builtin (pre ++ [WithPathRoots b])) ∧
    (∀ a b, FileSystemFinderInit builtin (pre ++ [WithFileTypes a, WithFileTypes b]) =
      FileSystemFinderInit builtin (pre ++ [WithFileTypes b])) ∧
    (∀ a b, FileSystemFinderInit builtin (pre ++ [WithExcludeDirs a, WithExcludeDirs b]) =
      FileSystemFinderInit builtin (pre ++ [WithExcludeDirs b])) ∧
    (∀ a b,
      FileSystemFinderInit builtin (pre ++ [WithExcludeFileTypes a, WithExcludeFileTypes b]) =
        FileSystemFinderInit builtin (pre ++ [WithExcludeFileTypes b])) ∧
    (∀ a b, FileSystemFinderInit builtin (pre ++ [WithDepth a, WithDepth b]) =
      FileSystemFinderInit builtin (pre ++ [WithDepth b])) ∧
    FileSystemFinderInit builtin (pre ++ [AddFiles filesA, AddFiles filesB]) =
      FileSystemFinderInit builtin (pre ++ [AddFiles filesB]) ∧
    FileSystemFinderInit builtin (pre ++ [AddFiles filesA, AddFiles []]) =
      FileSystemFinderInit builtin (pre ++ [AddFiles filesA]) := by
  refine ⟨?_, ?_, ?_, ?_, ?_, ?_, ?_⟩
  · intro a b; rw [Init_snoc_two, Init_snoc]; rfl
  · intro a b; rw [Init_snoc_two, Init_snoc]; rfl
  · intro a b; rw [Init_snoc_two, Init_snoc]; rfl
  · intro a b; rw [Init_snoc_two, Init_snoc]; rfl
  · intro a b; rw [Init_snoc_two, Init_snoc]; rfl
  · rw [Init_snoc_two, Init_snoc]
    have hlen : filesB.length > 0 := List.length_pos.mpr hB
    unfold AddFiles
    simp only [hlen, if_true]
    split <;> rfl
  · rw [Init_snoc_two, Init_snoc]
    rfl

/-- Witness of C13: a second, non-empty `AddFiles` replaces the table of the first. -/
theorem options_last_wins_witness :
    ["Jenkinsfile:groovy"] ≠ [] ∧
      FileSystemFinderInit [jsonType]
          ([WithDepth 2] ++ [AddFiles ["Makefile:make"], AddFiles ["Jenkinsfile:groovy"]]) =
        FileSystemFinderInit [jsonType] ([WithDepth 2] ++ [AddFiles ["Jenkinsfile:groovy"]]) :=
  ⟨by decide,
    (options_last_wins [jsonType] [WithDepth 2] ["Makefile:make"] ["Jenkinsfile:groovy"]
      (by decide)).2.2.2.2.2.1⟩

/-! ### C15 -/

theorem skipCond_of_no_depth (fsf : FileSystemFinder) (hd : fsf.Depth = none) (md : Int)
    (name path : String) :
    skipCond fsf md name path true = decide (name ∈ fsf.ExcludeDirs) := by
  simp [skipCond, hd]

mutual
/-- Without depth limit the walk of a readable tree returns, and holds the match of
every file that lies under no excluded directory. -/
theorem walkDir_complete (fsf : FileSystemFinder) (hd : fsf.Depth = none) (md : Int) :
    ∀ (n : Node) (path : String), readable n = true →
      ∃ ms, walkDir fsf md path n = .next ms ∧
        ∀ dirs name fpath, FileAt path n dirs name fpath →
          (∀ d ∈ dirs, d ∉ fsf.ExcludeDirs) → ∀ m ∈ matchFile fsf name fpath, m ∈ ms
  | .file name, path, _ => by
    refine ⟨matchFile fsf name path, walkDir_file fsf md path name, ?_⟩
    intro dirs name1 fpath hat _ m hm
    cases hat
    exact hm
  | .dir name re ch, path, hr => by
    rw [readable, Bool.and_eq_true] at hr
    obtain ⟨hre, hch⟩ := hr
    have hre1 : re = none := by
      cases re with
      | none => rfl
      | some e => simp at hre
    subst hre1
    obtain ⟨ms, hw, hall⟩ := walkEntries_complete fsf hd md ch path hch
    rw [walkDir_dir, skipCond_of_no_depth fsf hd]
    by_cases hex : name ∈ fsf.ExcludeDirs
    · refine ⟨[], by simp [hex], ?_⟩
      intro dirs name1 fpath hat hdirs
      cases hat with
      | dir _ _ _ _ d dirs1 _ _ hmem hat1 =>
        exact absurd hex (hdirs name (List.mem_cons_self _ _))
    · refine ⟨ms, by simp [hex, hw], ?_⟩
      intro dirs name1 fpath hat hdirs m hm
      cases hat with
      | dir _ _ _ _ d dirs1 _ _ hmem hat1 =>
        exact hall d hmem dirs1 name1 fpath hat1
          (fun x hx => hdirs x (List.mem_cons_of_mem _ hx)) m hm
/-- The same for the entries of a directory. -/
theorem walkEntries_complete (fsf : FileSystemFinder) (hd : fsf.Depth = none) (md : Int) :
    ∀ (ds : List Node) (path : String), readableEntries ds = true →
      ∃ ms, walkEntries fsf md path ds = .next ms ∧
        ∀ d ∈ ds, ∀ dirs name fpath, FileAt (Join path d.name) d dirs name fpath →
          (∀ x ∈ dirs, x ∉ fsf.ExcludeDirs) → ∀ m ∈ matchFile fsf name fpath, m ∈ ms
  | [], path, _ => by
    refine ⟨[], by rw [walkEntries], ?_⟩
    intro d hd1
    cases hd1
  | c :: ds, path, hr => by
    rw [readableEntries, Bool.and_eq_true] at hr
    obtain ⟨hc, hds⟩ := hr
    obtain ⟨ms1, hw1, hall1⟩ := walkDir_complete fsf hd md c (Join path c.name) hc
    obtain ⟨ms2, hw2, hall2⟩ := walkEntries_complete fsf hd md ds path hds
    refine ⟨ms1 ++ ms2, by rw [walkEntries_cons, hw1, hw2], ?_⟩
    intro d hmem dirs name fpath hat hdirs m hm
    rcases List.mem_cons.mp hmem with rfl | hmem
    · exact List.mem_append_left _ (hall1 dirs name fpath hat hdirs m hm)
    · exact List.mem_append_right _ (hall2 d hmem dirs name fpath hat hdirs m hm)
end

/-- Counterexample to C15 as stated: the root is valid and names a JSON file, nothing
is excluded and no depth is set, and `Find` returns an error, `filepath.Abs` failing
on the match. -/
theorem Find_valid_root_error :
    worldGone.stat "../good.json" = none ∧
      findOne worldGone finderGoneOne "../good.json" =
        .ok [⟨"good.json", "../good.json", jsonType⟩] ∧
      finderGoneOne.PathRoots = ["../good.json"] ∧
      finderGoneOne.ExcludeDirs = [] ∧ finderGoneOne.ExcludeFileTypes = [] ∧
      finderGoneOne.Depth = none ∧
      Find worldGone finderGoneOne = .error ⟨"getwd", "", ENOENT⟩ ∧
      ∀ res, Find worldGone finderGoneOne ≠ .ok res := by
  refine ⟨by decide, by decide, by decide, by decide, by decide, by decide, by decide, ?_⟩
  intro res h
  have : Find worldGone finderGoneOne = .error ⟨"getwd", "", ENOENT⟩ := by decide
  rw [this] at h
  cases h

/-- C15, amended: when nothing is excluded and no depth is set, every root exists
and holds a tree whose directories can all be read, `filepath.Abs` resolves the path
of every match, and some file under some root has a lower-cased extension that a
registered `FileType` holds, `Find` returns a non-empty sequence and no error. -/
theorem Find_nonempty_of_matching_file (w : World) (fsf : FileSystemFinder)
    (hdepth : fsf.Depth = none) (hdirs : fsf.ExcludeDirs = [])
    (htypes : fsf.ExcludeFileTypes = [])
    (hvalid : ∀ r ∈ fsf.PathRoots, w.stat r = none ∧
      ∃ tree, w.lstat r = .ok tree ∧ readable tree = true)
    (habs : ∀ r ∈ fsf.PathRoots, ∀ ms, findOne w fsf r = .ok ms →
      ∀ m ∈ ms, ∃ a, w.abs m.Path = .ok a)
    (hfile : ∃ r ∈ fsf.PathRoots, ∃ tree dirs name fpath, w.lstat r = .ok tree ∧
      FileAt r tree dirs name fpath ∧
      ∃ ft ∈ fsf.FileTypes, ToLower (walkFileExtension fsf name fpath) ∈ ft.Extensions) :
    ∃ res, Find w fsf = .ok res ∧ res ≠ [] := by
  -- every root returns its matches
  have hwalk : ∀ r ∈ fsf.PathRoots, ∃ tree ms, w.lstat r = .ok tree ∧
      findOne w fsf r = .ok ms ∧
      ∀ dirs name fpath, FileAt r tree dirs name fpath →
        ∀ m ∈ matchFile fsf name fpath, m ∈ ms := by
    intro r hr
    obtain ⟨hs, tree, hl, hrd⟩ := hvalid r hr
    obtain ⟨ms, hw, hall⟩ := walkDir_complete fsf hdepth (maxDepthOf fsf r) tree r hrd
    refine ⟨tree, ms, hl, ?_, ?_⟩
    · rw [findOne_eq, hs, WalkDir_eq, hl]
      simp only
      rw [hw]
      rfl
    · intro dirs name fpath hat m hm
      exact hall dirs name fpath hat (by rw [hdirs]; simp) m hm
  have hok : ∀ r ∈ fsf.PathRoots, findOne w fsf r = .ok (matchesOf w fsf r) := by
    intro r hr
    obtain ⟨_, ms, _, hf, _⟩ := hwalk r hr
    unfold matchesOf
    rw [hf]
  have habs1 : ∀ r ∈ fsf.PathRoots, ∀ m ∈ matchesOf w fsf r, ∃ a, w.abs m.Path = .ok a :=
    fun r hr m hm => habs r hr _ (hok r hr) m hm
  have hfind := Find_spec w fsf (matchesOf w fsf) hok habs1
  refine ⟨_, hfind, ?_⟩
  -- the matching file is among the matches
  obtain ⟨r, hr, tree, dirs, name, fpath, hl, hat, ft, hft, hext⟩ := hfile
  obtain ⟨tree1, ms, hl1, hf, hall⟩ := hwalk r hr
  have htree : tree1 = tree := by
    rw [hl] at hl1
    injection hl1 with h
    exact h.symm
  subst htree
  have hmf : ∃ m, m ∈ matchFile fsf name fpath := by
    rw [matchFile_eq, htypes]
    simp only [List.not_mem_nil, if_false]
    cases hm : matchFileType fsf.FileTypes (ToLower (walkFileExtension fsf name fpath)) with
    | none => exact absurd hext ((matchFileType_none _ _).mp hm ft hft)
    | some ft1 => exact ⟨_, List.mem_singleton.mpr rfl⟩
  obtain ⟨m, hm⟩ := hmf
  have hmem : m ∈ allMatches (matchesOf w fsf) fsf.PathRoots := by
    rw [mem_allMatches]
    refine ⟨r, hr, ?_⟩
    have := hok r hr
    rw [hf] at this
    injection this with h
    rw [← h]
    exact hall dirs name fpath hat m hm
  cases hall1 : allMatches (matchesOf w fsf) fsf.PathRoots with
  | nil => rw [hall1] at hmem; cases hmem
  | cons x l =>
    intro hnil
    have hx := firstOccurrences_first (absKey w) [] [] x l (by simp)
    rw [List.nil_append, hnil] at hx
    cases hx

theorem abs_ok_of_getwd (w : World) (wd : String) (h : w.getwd = .ok wd) (p : String) :
    ∃ a, w.abs p = .ok a := by
  unfold World.abs
  rw [h]
  split
  · exact ⟨_, rfl⟩
  · exact ⟨_, rfl⟩

/-- Witness of C15: the fixtures hold `good.json`, and `Find` returns a non-empty
sequence. -/
theorem Find_nonempty_of_matching_file_witness :
    ∃ res, Find worldFixtures finderFixtures = .ok res ∧ res ≠ [] :=
  Find_nonempty_of_matching_file worldFixtures finderFixtures rfl rfl rfl
    (by
      intro r hr
      have hr1 : r = "fixtures" := by
        simpa [finderFixtures, FileSystemFinderInit, WithPathRoots] using hr
      subst hr1
      exact ⟨by decide, _, rfl, by decide⟩)
    (fun _ _ _ _ m _ => abs_ok_of_getwd worldFixtures "/repo" rfl m.Path)
    ⟨"fixtures", by decide, _, ["fixtures"], "good.json", "fixtures/good.json", rfl,
      FileAt.dir "fixtures" "fixtures" none _ (.file "good.json") [] "good.json"
        "fixtures/good.json" (List.mem_cons_self _ _)
        (by
          have hj : Join "fixtures" (Node.file "good.json").name = "fixtures/good.json" := by
            decide
          rw [hj]
          exact FileAt.file _ _),
      jsonType, by decide, by decide⟩

/-! ### C18 -/

theorem splitAtChar_append_general (d : Char) :
    ∀ (a t : List Char),
      splitAtChar d (a ++ d :: t) = splitAtChar d a ++ splitAtChar d t
  | [], t => by simp [splitAtChar]
  | c :: a, t => by
    have ih := splitAtChar_append_general d a t
    by_cases hc : c = d
    · rw [List.cons_append, splitAtChar, if_pos hc, ih, splitAtChar, if_pos hc]
      rfl
    · rw [List.cons_append, splitAtChar, if_neg hc, ih, splitAtChar, if_neg hc]
      cases hs : splitAtChar d a with
      | nil => exact absurd hs (splitAtChar_ne_nil d a)
      | cons h tl => rfl

theorem foldl_cleanStep_skip_empty (rooted : Bool) (xs ys : List (List Char))
    (out : List (List Char)) :
    (xs ++ [] :: ys).foldl (cleanStep rooted) out =
      (xs ++ ys).foldl (cleanStep rooted) out := by
  rw [List.foldl_append, List.foldl_append, List.foldl_cons, cleanStep_length_empty]

theorem cleanElems_double_sep (rooted : Bool) (a b : List Char) :
    cleanElems rooted (a ++ sep :: sep :: b) = cleanElems rooted (a ++ sep :: b) := by
  unfold cleanElems splitSep
  rw [splitAtChar_append_general, splitAtChar_append_general, splitAtChar, if_pos rfl,
    foldl_cleanStep_skip_empty]

/-- Two separators in a row are cleaned as one. -/
theorem cleanChars_double_sep (a b : List Char) (ha : a ≠ []) :
    cleanChars (a ++ sep :: sep :: b) = cleanChars (a ++ sep :: b) := by
  cases a with
  | nil => exact absurd rfl ha
  | cons c a1 =>
    have h1 := cleanElems_double_sep true (c :: a1) b
    have h2 := cleanElems_double_sep false (c :: a1) b
    simp only [List.cons_append] at h1 h2 ⊢
    unfold cleanChars
    simp only [h1, h2]

theorem Join_trailing_sep (r name : String) (hr : r.data ≠ []) :
    Join (r ++ "/") name = Join r name := by
  have hd : (r ++ "/").data = r.data ++ [sep] := by
    rw [String.data_append]
    rfl
  unfold Join
  rw [hd]
  have hne : r.data ++ [sep] ≠ [] := by simp
  rw [if_pos hne, if_pos hr]
  congr 1
  have := cleanChars_double_sep r.data name.data hr
  simpa using this

theorem sepCount_trailing_sep (r : String) : sepCount (r ++ "/") = sepCount r + 1 := by
  unfold sepCount
  rw [String.data_append]
  have : ("/" : String).data = [sep] := rfl
  rw [this, List.count_append]
  simp

theorem walkEntries_path_congr (fsf : FileSystemFinder) (md : Int) (p1 p2 : String)
    (h : ∀ name, Join p1 name = Join p2 name) :
    ∀ ds : List Node, walkEntries fsf md p1 ds = walkEntries fsf md p2 ds
  | [] => by rw [walkEntries, walkEntries]
  | d :: ds => by
    rw [walkEntries_cons, walkEntries_cons, h d.name, walkEntries_path_congr fsf md p1 p2 h ds]

mutual
/-- The walk reads of `Depth` only whether it is set. -/
theorem walkDir_depth_value (fsf : FileSystemFinder) (a b md : Int) :
    ∀ (n : Node) (path : String),
      walkDir { fsf with Depth := some a } md path n =
        walkDir { fsf with Depth := some b } md path n
  | .file name, path => by
    rw [walkDir_file, walkDir_file]
    rfl
  | .dir name re ch, path => by
    rw [walkDir_dir, walkDir_dir, walkEntries_depth_value fsf a b md ch path]
    rfl
/-- The same for the entries of a directory. -/
theorem walkEntries_depth_value (fsf : FileSystemFinder) (a b md : Int) :
    ∀ (ds : List Node) (path : String),
      walkEntries { fsf with Depth := some a } md path ds =
        walkEntries { fsf with Depth := some b } md path ds
  | [], path => by rw [walkEntries, walkEntries]
  | d :: ds, path => by
    rw [walkEntries_cons, walkEntries_cons, walkDir_depth_value fsf a b md d,
      walkEntries_depth_value fsf a b md ds path]
end

/-- The bound of a root with a trailing separator is never the separator count of
the root without it. -/
theorem wrapInt_shift_ne (c d : Int) (hd0 : 0 ≤ d) (hd1 : d ≤ maxInt) :
    wrapInt (c + 1 + d) ≠ c := by
  unfold wrapInt
  unfold maxInt at hd1
  omega

/-- C18: a trailing separator shifts the depth budget by one level: for a root `r`
that names a directory (named alike, with or without the separator) and a depth `d`
with `0 ≤ d`, in the range of `int`, `findOne` on `r` followed by a separator with
`Depth = d` returns what `findOne` on `r` returns with `Depth = d + 1`: the same
entries, with the same names, paths and types, in the same order, or the same
error. -/
theorem findOne_trailing_separator (w : World) (fsf : FileSystemFinder) (r : String)
    (d : Int) (name : String) (re : Option FsError) (ch : List Node)
    (hr : r.data ≠ []) (hd0 : 0 ≤ d) (hd1 : d ≤ maxInt)
    (hstat : w.stat (r ++ "/") = w.stat r)
    (hl : w.lstat r = .ok (.dir name re ch))
    (hl1 : w.lstat (r ++ "/") = .ok (.dir name re ch)) :
    findOne w { fsf with Depth := some d } (r ++ "/") =
      findOne w { fsf with Depth := some (d + 1) } r := by
  have hmd : maxDepthOf { fsf with Depth := some d } (r ++ "/") =
      maxDepthOf { fsf with Depth := some (d + 1) } r := by
    unfold maxDepthOf
    simp only
    rw [sepCount_trailing_sep]
    congr 1
    push_cast
    ring
  have hmdv : maxDepthOf { fsf with Depth := some (d + 1) } r =
      wrapInt ((sepCount r : Int) + 1 + d) := by
    unfold maxDepthOf
    simp only
    congr 1
    ring
  have hne := wrapInt_shift_ne (sepCount r : Int) d hd0 hd1
  have hW : WalkDir w { fsf with Depth := some d }
        (maxDepthOf { fsf with Depth := some d } (r ++ "/")) (r ++ "/") =
      WalkDir w { fsf with Depth := some (d + 1) }
        (maxDepthOf { fsf with Depth := some (d + 1) } r) r := by
    rw [WalkDir_eq, WalkDir_eq, hl, hl1, hmd]
    simp only
    rw [walkDir_dir, walkDir_dir,
      walkEntries_path_congr _ _ (r ++ "/") r (fun n => Join_trailing_sep r n hr) ch,
      walkEntries_depth_value fsf d (d + 1) _ ch r]
    have hskip : skipCond { fsf with Depth := some d }
          (maxDepthOf { fsf with Depth := some (d + 1) } r) name (r ++ "/") true =
        skipCond { fsf with Depth := some (d + 1) }
          (maxDepthOf { fsf with Depth := some (d + 1) } r) name r true := by
      unfold skipCond
      rw [sepCount_trailing_sep, hmdv]
      simp only [Option.isSome_some, Bool.true_and]
      congr 1
      rw [decide_eq_decide]
      push_cast
      constructor <;> intro h <;> omega
    rw [hskip]
  rw [findOne_eq, findOne_eq, hstat, hW]

/-- Witness of C18: `a/b/` with depth 0 and `a/b` with depth 1 return the files of
the first two levels. -/
theorem findOne_trailing_separator_witness :
    findOne worldTrailing { finderNested none with Depth := some 0 } ("a/b" ++ "/") =
        findOne worldTrailing { finderNested none with Depth := some (0 + 1) } "a/b" ∧
      findOne worldTrailing { finderNested none with Depth := some (0 + 1) } "a/b" =
        .ok [⟨"mid.json", "a/b/c/mid.json", jsonType⟩,
          ⟨"top.json", "a/b/top.json", jsonType⟩] :=
  ⟨findOne_trailing_separator worldTrailing (finderNested none) "a/b" 0 "b" none
      [.dir "c" none [.dir "d" none [.file "deep.json"], .file "mid.json"],
        .file "top.json"]
      (by decide) (by decide) (by decide) (by decide) rfl rfl,
    by decide⟩

/-! ### C19 -/

theorem wrapInt_of_int_range (x : Int) (h0 : minInt ≤ x) (h1 : x ≤ maxInt) :
    wrapInt x = x := by
  unfold wrapInt
  unfold minInt at h0
  unfold maxInt at h1
  omega

mutual
/-- A walk that skips every directory that another walk skips, and treats files
alike, returns a subsequence of what the other returns. -/
theorem walkDir_mono (fsfA fsfB : FileSystemFinder) (mdA mdB : Int)
    (hskip : ∀ name path, skipCond fsfB mdB name path true = true →
      skipCond fsfA mdA name path true = true)
    (hfile : ∀ name path, matchFile fsfA name path = matchFile fsfB name path) :
    ∀ (n : Node) (path : String) (l2 : List FileMetadata),
      walkDir fsfB mdB path n = .next l2 →
      ∃ l1, walkDir fsfA mdA path n = .next l1 ∧ l1.Sublist l2
  | .file name, path, l2, h => by
    rw [walkDir_file] at h
    injection h with h
    refine ⟨l2, ?_, List.Sublist.refl _⟩
    rw [walkDir_file, hfile, h]
  | .dir name re ch, path, l2, h => by
    rw [walkDir_dir] at h
    rw [walkDir_dir]
    by_cases hA : skipCond fsfA mdA name path true = true
    · exact ⟨[], by simp [hA], List.nil_sublist _⟩
    · have hB : ¬ skipCond fsfB mdB name path true = true := fun hb => hA (hskip _ _ hb)
      simp only [hB, if_false, Bool.false_eq_true] at h
      simp only [hA, if_false, Bool.false_eq_true]
      cases re with
      | some e => cases h
      | none =>
        simp only at h ⊢
        exact walkEntries_mono fsfA fsfB mdA mdB hskip hfile ch path l2 h
/-- The same for the entries of a directory. -/
theorem walkEntries_mono (fsfA fsfB : FileSystemFinder) (mdA mdB : Int)
    (hskip : ∀ name path, skipCond fsfB mdB name path true = true →
      skipCond fsfA mdA name path true = true)
    (hfile : ∀ name path, matchFile fsfA name path = matchFile fsfB name path) :
    ∀ (ds : List Node) (path : String) (l2 : List FileMetadata),
      walkEntries fsfB mdB path ds = .next l2 →
      ∃ l1, walkEntries fsfA mdA path ds = .next l1 ∧ l1.Sublist l2
  | [], path, l2, h => by
    rw [walkEntries] at h
    injection h with h
    exact ⟨[], by rw [walkEntries], by rw [← h]⟩
  | d :: ds, path, l2, h => by
    rw [walkEntries_cons] at h
    cases h1 : walkDir fsfB mdB (Join path d.name) d with
    | fail e => rw [h1] at h; cases h
    | skipDir => exact absurd h1 (walkDir_ne_skip _ _ _ _)
    | next ms =>
      rw [h1] at h
      simp only at h
      cases h2 : walkEntries fsfB mdB path ds with
      | fail e => rw [h2] at h; cases h
      | skipDir => exact absurd h2 (walkEntries_ne_skip _ _ _ _)
      | next rest =>
        rw [h2] at h
        simp only at h
        injection h with h
        obtain ⟨a1, ha1, hs1⟩ := walkDir_mono fsfA fsfB mdA mdB hskip hfile d _ ms h1
        obtain ⟨a2, ha2, hs2⟩ := walkEntries_mono fsfA fsfB mdA mdB hskip hfile ds path rest h2
        refine ⟨a1 ++ a2, by rw [walkEntries_cons, ha1, ha2], ?_⟩
        rw [← h]
        exact hs1.append hs2
end

theorem findOne_mono (w : World) (fsfA fsfB : FileSystemFinder) (root : String)
    (hskip : ∀ name path, skipCond fsfB (maxDepthOf fsfB root) name path true = true →
      skipCond fsfA (maxDepthOf fsfA root) name path true = true)
    (hfile : ∀ name path, matchFile fsfA name path = matchFile fsfB name path)
    (l2 : List FileMetadata) (h : findOne w fsfB root = .ok l2) :
    ∃ l1, findOne w fsfA root = .ok l1 ∧ l1.Sublist l2 := by
  obtain ⟨tree, hl, hw⟩ := findOne_ok_walk w fsfB root l2 h
  obtain ⟨l1, hw1, hsub⟩ := walkDir_mono fsfA fsfB _ _ hskip hfile tree root l2 hw
  refine ⟨l1, ?_, hsub⟩
  have hstat : ∀ e, w.stat root = some e → e.isNotExist = false := by
    intro e he
    rw [findOne_eq, he] at h
    simp only at h
    cases hne : e.isNotExist with
    | false => rfl
    | true => rw [hne] at h; simp at h
  rw [findOne_eq, WalkDir_eq, hl]
  simp only
  rw [hw1]
  cases hs : w.stat root with
  | none => rfl
  | some e =>
    simp only
    rw [hstat e hs]
    rfl

/-- Counterexample to C19 as stated: the directory `r/locked` cannot be read; with
the depth 0 it is skipped and the file of the root is returned, with the larger
depth 1, and with no depth, the walk fails and no sequence is returned. -/
theorem findOne_larger_depth_fails :
    findOne worldLocked (finderLocked (some 0)) "r" =
        .ok [⟨"top.json", "r/top.json", jsonType⟩] ∧
      findOne worldLocked (finderLocked (some 1)) "r" = .error ⟨"open", "r/locked", 13⟩ ∧
      findOne worldLocked (finderLocked none) "r" = .error ⟨"open", "r/locked", 13⟩ := by
  decide

/-- C19, amended: for two depth limits `d1 ≤ d2`, negative ones included, such that
the bound `maxDepth` of the larger one stays in the range of `int`: whenever `findOne` returns a
sequence with `Depth = d2`, it returns with `Depth = d1` a subsequence of it; and
whenever `findOne` returns a sequence with `Depth` absent, it returns with any depth
a subsequence of it. Lowering the limit never adds or reorders a match. -/
theorem findOne_depth_monotone (w : World) (fsf : FileSystemFinder) (root : String)
    (d1 d2 : Int) (hle : d1 ≤ d2) (hmin : minInt ≤ d1)
    (hmax : (sepCount root : Int) + d2 ≤ maxInt) :
    (∀ l2, findOne w { fsf with Depth := some d2 } root = .ok l2 →
      ∃ l1, findOne w { fsf with Depth := some d1 } root = .ok l1 ∧ l1.Sublist l2) ∧
    (∀ l, findOne w { fsf with Depth := none } root = .ok l →
      ∀ d, ∃ l1, findOne w { fsf with Depth := some d } root = .ok l1 ∧ l1.Sublist l) := by
  constructor
  · intro l2 h
    refine findOne_mono w { fsf with Depth := some d1 } { fsf with Depth := some d2 } root
      ?_ (fun _ _ => rfl) l2 h
    intro name path hs
    have hm1 : maxDepthOf { fsf with Depth := some d1 } root = (sepCount root : Int) + d1 := by
      unfold maxDepthOf
      simp only
      exact wrapInt_of_int_range _ (by omega) (by omega)
    have hm2 : maxDepthOf { fsf with Depth := some d2 } root = (sepCount root : Int) + d2 := by
      unfold maxDepthOf
      simp only
      exact wrapInt_of_int_range _ (by unfold minInt at *; omega) hmax
    rw [hm2] at hs
    rw [hm1]
    simp only [skipCond, Option.isSome_some, Bool.true_and, Bool.or_eq_true,
      decide_eq_true_eq] at hs ⊢
    rcases hs with hs | hs
    · left; omega
    · right; exact hs
  · intro l h d
    refine findOne_mono w { fsf with Depth := some d } { fsf with Depth := none } root
      ?_ (fun _ _ => rfl) l h
    intro name path hs
    simp only [skipCond, Option.isSome_none, Bool.false_and, Bool.false_or, Bool.true_and,
      decide_eq_true_eq, Option.isSome_some, Bool.or_eq_true] at hs ⊢
    right
    exact hs

/-- Witness of C19: on `a/b` the depth 0 gives the file of the root, a subsequence of
the two files that the depth 5 gives. -/
theorem findOne_depth_monotone_witness :
    ((0 : Int) ≤ 5 ∧ minInt ≤ 0 ∧ (sepCount "a/b" : Int) + 5 ≤ maxInt) ∧
      ∃ l1, findOne worldNested { finderNested none with Depth := some 0 } "a/b" = .ok l1 ∧
        l1.Sublist [⟨"low.json", "a/b/c/low.json", jsonType⟩,
          ⟨"top.json", "a/b/top.json", jsonType⟩] :=
  ⟨⟨by decide, by decide, by decide⟩,
    (findOne_depth_monotone worldNested (finderNested none) "a/b" 0 5 (by decide)
      (by decide) (by decide)).1 _ (by decide)⟩

end Finder
